import Mathlib

/-!
Verification development for the cryptocurrency data-pipeline script
(`Python_Scripts/Only_Script.py`).  The Python source is shallowly embedded:
pure data transformations become Lean functions over `ℚ`/`ℤ`/`String`
tables, the Excel workbook becomes an association list of named cell grids,
and the retry loop becomes a fuelled recursion over an attempt trace.

Modelling conventions, used throughout:
* pandas/openpyxl cell contents are the inductive `Value` below; `NaN`,
  `None` and blank cells are all `Value.blank`;
* Python floats are modelled as exact rationals; `round` / `.round(d)` is
  round-half-to-even on rationals (`roundq`), as in Python and numpy;
* calendar rendering of epoch timestamps (`strftime('%Y-%m-%d')`) is
  abstracted order-isomorphically: a timestamp in seconds is mapped to its
  UTC day number `⌊t / 86400⌋`; timestamps in milliseconds are kept as-is
  in the Date column (the rendering is injective and not inspected by any
  property proved here);
* the 7-day volatility column stores the pre-square-root sample variance
  of daily returns (the script stores its rounded square root, which is
  irrational in general; definedness — null vs non-null — coincides).
-/

/-- A spreadsheet/DataFrame cell: a number, a string, or blank (None/NaN). -/
inductive Value where
  | num (q : ℚ)
  | str (s : String)
  | blank
deriving DecidableEq, Repr

/-- Floor of a rational, computed on the numerator and denominator
(definitionally `⌊q⌋` by `Rat.floor_def`, but kernel-reducible). -/
def qfloor (q : ℚ) : ℤ := q.num / (q.den : ℤ)

theorem qfloor_eq (q : ℚ) : qfloor q = ⌊q⌋ := by rw [Rat.floor_def]; rfl

/-- Round half to even of the fraction `n / d` (`d` positive), using only
integer arithmetic so that concrete instances evaluate in the kernel. -/
def roundNumDen (n d : ℤ) : ℤ :=
  let f := n / d
  let r := n - f * d
  if 2 * r < d then f
  else if d < 2 * r then f + 1
  else if f % 2 = 0 then f else f + 1

/-- Round half to even to an integer, as Python `round` / numpy do. -/
def roundHalfEven (q : ℚ) : ℤ := roundNumDen q.num q.den

/-- Round half to even at `d` decimal places (models `round(x, d)` and
pandas `.round(d)`). -/
def roundq (d : ℕ) (q : ℚ) : ℚ :=
  (roundNumDen (q.num * 10 ^ d) (q.den : ℤ) : ℚ) / 10 ^ d

/-- Truncate toward zero (models Python `int(x)` on a float). -/
def truncToInt (q : ℚ) : ℤ :=
  q.num / (q.den : ℤ)

/-- Arithmetic mean of a list of rationals (0 on the empty list; callers
guard against the empty case as pandas does). -/
def listMean (l : List ℚ) : ℚ :=
  l.sum / (l.length : ℚ)

/-- Sample variance with one delta degree of freedom (`ddof=1`), the
quantity under the square root in pandas `rolling(...).std()`. -/
def sampleVar (l : List ℚ) : ℚ :=
  (l.map (fun x => (x - listMean l) ^ 2)).sum / ((l.length : ℚ) - 1)

/-! ## Resilient HTTP fetcher (`make_api_call_with_retry`, lines 93-110)

The loop body is driven by a trace `attempts : ℕ → Attempt` describing what
`requests.get` + `raise_for_status` do on each iteration, and a trace
`jitter : ℕ → ℚ` giving the value drawn by `random.uniform(0, 1)` before
each retry sleep.  The Python variable `response` survives across loop
iterations; reading it before any assignment raises `UnboundLocalError`,
modelled by `FetchOutcome.crash`. -/

/-- Configured backoff multiplier (`BACKOFF_FACTOR = 2`). -/
def backoffFactor : ℚ := 2

/-- Configured maximum attempt count (`MAX_RETRIES = 5`). -/
def maxRetriesDefault : ℕ := 5

/-- Configured initial delay (`INITIAL_API_CALL_DELAY_SECONDS = 5`). -/
def initialDelayDefault : ℚ := 5

/-- What one loop iteration of the fetcher observes:
`success p` — the GET returned 2xx with payload `p`;
`httpFail s` — the GET returned a response with non-2xx status `s`
(`raise_for_status` raised, and `response` is bound to that response);
`connFail` — `requests.get` itself raised before any response was bound
(`response` keeps whatever binding it had, if any). -/
inductive Attempt where
  | success (payload : ℕ)
  | httpFail (status : ℕ)
  | connFail
deriving DecidableEq, Repr

/-- Result of the fetcher: the successful payload, a `None` return, or an
uncaught `UnboundLocalError` escaping the function. -/
inductive FetchOutcome where
  | payload (p : ℕ)
  | failure
  | crash
deriving DecidableEq, Repr

/-- The retry loop.  `fuel` is the number of remaining iterations of
`for attempt in range(max_retries)`, `i` the current attempt index,
`last` the status code of the last response bound to `response` (if any),
`delay` the current backoff delay, `slept` the total time slept so far and
`reqs` the number of `requests.get` calls issued so far.  Returns the
outcome, the total time slept and the total number of requests issued. -/
def retryAux (attempts : ℕ → Attempt) (jitter : ℕ → ℚ) :
    ℕ → ℕ → Option ℕ → ℚ → ℚ → ℕ → FetchOutcome × ℚ × ℕ
  | 0, _, _, _, slept, reqs => (FetchOutcome.failure, slept, reqs)
  | fuel + 1, i, last, delay, slept, reqs =>
    match attempts i with
    | Attempt.success p => (FetchOutcome.payload p, slept, reqs + 1)
    | Attempt.httpFail s =>
      if s = 429 then
        retryAux attempts jitter fuel (i + 1) (some s) (delay * backoffFactor)
          (slept + delay + jitter i) (reqs + 1)
      else (FetchOutcome.failure, slept, reqs + 1)
    | Attempt.connFail =>
      match last with
      | none => (FetchOutcome.crash, slept, reqs + 1)
      | some s =>
        if s = 429 then
          retryAux attempts jitter fuel (i + 1) (some s) (delay * backoffFactor)
            (slept + delay + jitter i) (reqs + 1)
        else (FetchOutcome.failure, slept, reqs + 1)

/-- `make_api_call_with_retry(url, params, max_retries, initial_delay)`:
runs the loop from attempt 0 with no response bound yet. -/
def makeApiCallWithRetry (attempts : ℕ → Attempt) (jitter : ℕ → ℚ)
    (maxRetries : ℕ) (initialDelay : ℚ) : FetchOutcome × ℚ × ℕ :=
  retryAux attempts jitter maxRetries 0 none initialDelay 0 0

example :
    makeApiCallWithRetry (fun _ => Attempt.success 7) (fun _ => 0) 5 5 =
      (FetchOutcome.payload 7, 0, 1) := rfl

example :
    makeApiCallWithRetry (fun _ => Attempt.connFail) (fun _ => 0) 5 5 =
      (FetchOutcome.crash, 0, 1) := rfl

/-! ## Historical series normalizer (`get_historical_data`, lines 214-267)

The raw payload carries three parallel lists `prices`, `total_volumes` and
`market_caps`, each a list of `[timestamp_ms, value]` pairs where the value
may be `null`.  All three are truncated to the shortest length, the rows
are paired by index, and four derived indicator columns are computed. -/

/-- UTC day number of an epoch-millisecond timestamp (timestamps in the
JSON payload are integers); stands in for
`datetime.fromtimestamp(t/1000).strftime('%Y-%m-%d')` (the calendar
rendering is injective on day numbers and never inspected here). -/
def epochMsToDay (t : ℤ) : ℤ := Int.fdiv t 86400000

/-- The trailing window of width `w` ending at index `i` (indices
`max(0, i+1-w) .. i`), as used by pandas `rolling(window=w)`. -/
def rollingWindow (l : List α) (w i : ℕ) : List α :=
  (l.take (i + 1)).drop (i + 1 - w)

/-- Daily return `((P_i / P_{i-1}) - 1) * 100` over the price column
(`None` at row 0 from `shift(1)`, and whenever either price is missing). -/
def dailyReturnAt (ps : List (Option ℚ)) (i : ℕ) : Option ℚ :=
  if i = 0 then none
  else
    match ps.getD i none, ps.getD (i - 1) none with
    | some a, some b => some ((a / b - 1) * 100)
    | _, _ => none

/-- Rolling mean with `min_periods=1`: the mean of the non-missing values
in the trailing window, `None` only when every value there is missing. -/
def rollingMeanAt (w : ℕ) (ps : List (Option ℚ)) (i : ℕ) : Option ℚ :=
  let xs := (rollingWindow ps w i).filterMap id
  if xs.isEmpty then none else some (listMean xs)

/-- Rolling 7-slot sample standard deviation with `min_periods=1`,
represented by its pre-square-root sample variance (see the module
comment): defined exactly when at least two values in the window are
non-missing (`std` with `ddof=1` of fewer values is `NaN`). -/
def rollingVarAt (rets : List (Option ℚ)) (i : ℕ) : Option ℚ :=
  let xs := (rollingWindow rets 7 i).filterMap id
  if xs.length < 2 then none else some (sampleVar xs)

/-- One row of the normalized historical table. -/
structure HistRow where
  date : ℤ
  price : Option ℚ
  volume : Option ℤ
  marketCap : Option ℤ
  dailyReturn : Option ℚ
  ma7 : Option ℚ
  ma30 : Option ℚ
  vol7 : Option ℚ
deriving DecidableEq, Repr

/-- Placeholder row for safe indexing in statements. -/
def histDefault : HistRow := ⟨0, none, none, none, none, none, none, none⟩

/-- `get_historical_data`: truncates the three series to the shortest
length, pairs by index, and computes the derived columns.  The price cell
is `round(p, 4)`, volume and market cap are `int(v)` (truncation), the
daily return is rounded to 3 decimals and both moving averages to 4; when
the table has at most one row every derived column is `None`. -/
def getHistoricalData (prices volumes marketCaps : List (ℤ × Option ℚ)) :
    List HistRow :=
  let n := min (min prices.length volumes.length) marketCaps.length
  let ps : List (Option ℚ) :=
    (prices.take n).map (fun p => p.2.map (roundq 4))
  let rets : List (Option ℚ) := (List.range n).map (dailyReturnAt ps)
  (List.range n).map (fun i =>
    { date := epochMsToDay ((prices.take n).getD i (0, none)).1
      price := ps.getD i none
      volume := (((volumes.take n).getD i (0, none)).2).map truncToInt
      marketCap := (((marketCaps.take n).getD i (0, none)).2).map truncToInt
      dailyReturn :=
        if n ≤ 1 then none else (dailyReturnAt ps i).map (roundq 3)
      ma7 := if n ≤ 1 then none else (rollingMeanAt 7 ps i).map (roundq 4)
      ma30 := if n ≤ 1 then none else (rollingMeanAt 30 ps i).map (roundq 4)
      vol7 := if n ≤ 1 then none else rollingVarAt rets i })

/-! ## Sentiment normalizer (`get_fear_greed_index`, lines 270-292)

Each raw record carries an index value (already coerced, as by
`pd.to_numeric(..., errors='coerce').astype('Int64')`, to an
integer-or-missing), a textual classification and an epoch-second
timestamp.  The normalizer converts timestamps to dates and sorts
ascending by date; pandas `sort_values` is modelled by the deterministic
stable `insertionSort`. -/

/-- UTC day number of an epoch-second timestamp; stands in for
`pd.to_datetime(ts, unit='s').strftime('%Y-%m-%d')` (two timestamps get
equal day numbers exactly when they render to the same date string, and
the rendering is monotone). -/
def epochSecToDay (t : ℤ) : ℤ := Int.fdiv t 86400

/-- A raw Fear & Greed record from the API payload. -/
structure FngRecord where
  value : Option ℤ
  classification : String
  timestamp : ℤ
deriving DecidableEq, Repr

/-- A row of the normalized sentiment table. -/
structure FngRow where
  date : ℤ
  value : Option ℤ
  classification : String
deriving DecidableEq, Repr

/-- Ordering of sentiment rows by date (the `sort_values('Date')` key). -/
def fngLE (a b : FngRow) : Prop := a.date ≤ b.date

instance : DecidableRel fngLE := fun a b =>
  inferInstanceAs (Decidable (a.date ≤ b.date))

instance : IsTotal FngRow fngLE := ⟨fun a b => Int.le_total a.date b.date⟩

instance : IsTrans FngRow fngLE := ⟨fun _ _ _ h1 h2 => le_trans h1 h2⟩

/-- `get_fear_greed_index`: one output row per raw record, sorted
ascending by date.  No deduplication is performed. -/
def getFearGreedIndex (records : List FngRecord) : List FngRow :=
  List.insertionSort fngLE
    (records.map (fun r =>
      { date := epochSecToDay r.timestamp
        value := r.value
        classification := r.classification }))

example :
    getFearGreedIndex
      [⟨some 20, "Fear", 172800⟩, ⟨some 70, "Greed", 86400⟩] =
      [⟨1, some 70, "Greed"⟩, ⟨2, some 20, "Fear"⟩] := by decide

/-! ## Portfolio sheet merge (`create_or_update_excel`, lines 725-764)

A sheet is a grid of cell rows; when present, row 1 (index 0) is the
header.  The existing Current Portfolio sheet is read into records keyed
by the `Coin ID` cell, the fresh price table (pairs of coin id and current
price, as built in `__main__` lines 793-800) is merged in, a fixed set of
columns is filled in with empty strings where missing, and the sheet is
rewritten from the fixed column list.  DataFrames with an index are
modelled by `PFrame`: the non-index column names (header cell values) plus
one `(key, cells)` pair per row, every `cells` list parallel to `cols`. -/

/-- A sheet grid: a list of cell rows (row 0 is the header if present). -/
abbrev Grid := List (List Value)

/-- The `Coin ID` header cell, the merge key. -/
def vCoinID : Value := Value.str "Coin ID"

/-- The `Current Value (USD)` header cell, the only field the merge
updates. -/
def vCurrentValue : Value := Value.str "Current Value (USD)"

/-- The fixed non-key column list (`portfolio_cols`, line 753).  Note the
spelling `Airdrop or Invest`, which differs in case from the header
`AirDrop or Invest` the script writes when it creates the sheet
(line 397). -/
def portfolioCols : List Value :=
  [vCurrentValue, Value.str "Symbol", Value.str "Location",
   Value.str "Quantity", Value.str "Purchase Price (USD)",
   Value.str "Total Value (USD)", Value.str "P/L (USD)",
   Value.str "P/L Ratio", Value.str "Airdrop or Invest"]

/-- A keyed DataFrame: column names and `(index key, cells)` rows. -/
structure PFrame where
  cols : List Value
  rows : List (Value × List Value)
deriving DecidableEq, Repr

/-- Pad or truncate a cell row to exactly `n` cells (pandas represents a
record missing some of the frame's columns with `NaN` in those columns,
and `dict(zip(header, row))` drops cells beyond the header). -/
def padRow (n : ℕ) (r : List Value) : List Value :=
  (r ++ List.replicate n Value.blank).take n

/-- The index keys of a keyed frame (`merged_portfolio_df.index`). -/
def keysOf (d : PFrame) : List Value := d.rows.map Prod.fst

/-- Lines 729-741: read the existing sheet into records and key them by
`Coin ID`.  With no data rows, or with no `Coin ID` column, the existing
frame is the empty one (lines 736-739). -/
def readPortfolio (g : Grid) : PFrame :=
  let header := g.headD []
  let data := g.tail
  if data.isEmpty ∨ vCoinID ∉ header then ⟨[], []⟩
  else
    let n := header.length
    let j := header.indexOf vCoinID
    ⟨header.erase vCoinID,
     data.map (fun r =>
       let r' := padRow n r
       (r'.getD j Value.blank, r'.eraseIdx j))⟩

/-- Line 747: `merged.loc[coin_id, 'Current Value (USD)'] = price` — sets
the current-value cell of every row with the given key; if the column does
not exist yet, `.loc` enlargement appends it, blank in all other rows. -/
def updateCurrentValue (d : PFrame) (k v : Value) : PFrame :=
  if vCurrentValue ∈ d.cols then
    ⟨d.cols,
     d.rows.map (fun row =>
       if row.1 = k then (row.1, row.2.set (d.cols.indexOf vCurrentValue) v)
       else row)⟩
  else
    ⟨d.cols ++ [vCurrentValue],
     d.rows.map (fun row =>
       (row.1, row.2 ++ [if row.1 = k then v else Value.blank]))⟩

/-- Lines 749-751: `pd.concat` with a one-row frame whose only column is
`Current Value (USD)`; column sets are aligned by name, missing cells
become blank (`NaN`). -/
def appendFreshRow (d : PFrame) (k v : Value) : PFrame :=
  if vCurrentValue ∈ d.cols then
    ⟨d.cols,
     d.rows ++
       [(k, d.cols.map (fun c => if c = vCurrentValue then v else Value.blank))]⟩
  else
    ⟨d.cols ++ [vCurrentValue],
     (d.rows.map (fun row => (row.1, row.2 ++ [Value.blank]))) ++
       [(k, (d.cols.map (fun _ => Value.blank)) ++ [v])]⟩

/-- One iteration of the loop at lines 745-751. -/
def mergeStep (d : PFrame) (kv : Value × Value) : PFrame :=
  if kv.1 ∈ keysOf d then updateCurrentValue d kv.1 kv.2
  else appendFreshRow d kv.1 kv.2

/-- The full loop over the fresh price table (lines 745-751). -/
def mergeLoop (d : PFrame) (fresh : List (Value × Value)) : PFrame :=
  fresh.foldl mergeStep d

/-- One step of lines 753-756: append the fixed column `c` filled with the
empty string when it is missing. -/
def fillStep (d : PFrame) (c : Value) : PFrame :=
  if c ∈ d.cols then d
  else ⟨d.cols ++ [c],
        d.rows.map (fun row => (row.1, row.2 ++ [Value.str ""]))⟩

/-- Lines 753-756: append each missing fixed column, filled with the empty
string. -/
def fillPortfolioCols (d : PFrame) : PFrame :=
  portfolioCols.foldl fillStep d

/-- Lines 758-764: `reset_index()[final_portfolio_cols]` followed by
clearing the sheet and writing header plus data rows. -/
def writePortfolio (d : PFrame) : Grid :=
  let kept := portfolioCols.filter (fun c => c ∈ d.cols)
  (vCoinID :: kept) ::
    d.rows.map (fun row =>
      row.1 :: kept.map (fun c => row.2.getD (d.cols.indexOf c) Value.blank))

/-- The whole portfolio-sheet merge (lines 725-764), from the persisted
sheet grid and the fresh `(coin id, current price)` table to the rewritten
sheet grid.  (Line 726 gates this on a non-empty fresh table; the gate is
applied by `createOrUpdateExcel` below.) -/
def mergePortfolioSheet (g : Grid) (fresh : List (Value × Value)) : Grid :=
  writePortfolio (fillPortfolioCols (mergeLoop (readPortfolio g) fresh))

/-- The cell of column `c` in data row `i` (0-based) of a sheet grid. -/
def cellAt (g : Grid) (i : ℕ) (c : Value) : Value :=
  (padRow (g.headD []).length (g.tail.getD i [])).getD
    ((g.headD []).indexOf c) Value.blank

example :
    mergePortfolioSheet
      [[vCoinID, Value.str "Notes", vCurrentValue],
       [Value.str "bitcoin", Value.str "keep", Value.num 10]]
      [(Value.str "bitcoin", Value.num 42)] =
    [[vCoinID, vCurrentValue, Value.str "Symbol", Value.str "Location",
      Value.str "Quantity", Value.str "Purchase Price (USD)",
      Value.str "Total Value (USD)", Value.str "P/L (USD)",
      Value.str "P/L Ratio", Value.str "Airdrop or Invest"],
     [Value.str "bitcoin", Value.num 42, Value.str "", Value.str "",
      Value.str "", Value.str "", Value.str "", Value.str "",
      Value.str "", Value.str ""]] := by decide

/-! ## Workbook synchronizer (`create_or_update_excel`, lines 353-780)

The workbook is an association list of named sheet grids.  The function
first creates every missing sheet of the fixed sheet list (lines 380-407),
then rewrites the Executive Dashboard unconditionally (lines 412-479),
replaces the content of each generated sheet for which fresh data exists
(lines 481-716), merges the portfolio sheet (lines 724-770), and finally
reorders the sheets to the fixed order (lines 772-777).  Cell styling,
column widths, conditional formatting and charts are presentation-only and
not modelled. -/

/-- A workbook: named sheets in order. -/
abbrev Workbook := List (String × Grid)

/-- `wb.sheetnames`. -/
def wbNames (wb : Workbook) : List String := wb.map Prod.fst

/-- Look up a sheet by name (`wb[name]`). -/
def wbGet : Workbook → String → Option Grid
  | [], _ => none
  | (m, g) :: t, n => if m = n then some g else wbGet t n

/-- Replace the content of the named sheet, keeping its position. -/
def wbSet (wb : Workbook) (n : String) (g : Grid) : Workbook :=
  wb.map (fun p => if p.1 = n then (n, g) else p)

def currentPortfolioSheetName : String := "Current Portfolio"

def transactionsSheetName : String := "Transactions"

def executiveDashboardSheetName : String := "📊 Executive Dashboard"

def marketOverviewSheetName : String := "📈 Market Overview"

def globalMetricsSheetName : String := "🌍 Global Metrics"

def fearGreedSheetName : String := "😰 Fear & Greed Index"

/-- Sheet name for one coin's history (line 647). -/
def histSheetName (sym : String) : String := sym ++ " History (1 Month)"

/-- The symbols with a history sheet (`HISTORY_COIN_IDS` keys). -/
def historySymbols : List String := ["BTC", "ETH", "BNB", "SOL", "SUI"]

/-- `SHEET_ORDER` (lines 69-81). -/
def sheetOrder : List String :=
  [executiveDashboardSheetName, marketOverviewSheetName,
   globalMetricsSheetName, fearGreedSheetName,
   histSheetName "BTC", histSheetName "ETH", histSheetName "BNB",
   histSheetName "SOL", histSheetName "SUI",
   transactionsSheetName, currentPortfolioSheetName]

/-- Content a missing sheet is created with (lines 381-407): fixed header
rows for the two operator-owned sheets, empty otherwise.  Note the
portfolio header spells `AirDrop or Invest` (line 397). -/
def initSheet (name : String) : Grid :=
  if name = transactionsSheetName then
    [[Value.str "Date", Value.str "Coin ID", Value.str "Type (Buy/Sell)",
      Value.str "Quantity", Value.str "Price (USD)",
      Value.str "Total Cost/Revenue (USD)"]]
  else if name = currentPortfolioSheetName then
    [[Value.str "Coin ID", Value.str "Current Value (USD)",
      Value.str "Purchase Price (USD)", Value.str "Quantity",
      Value.str "P/L (USD)", Value.str "P/L Ratio",
      Value.str "Total Value (USD)", Value.str "Symbol",
      Value.str "Location", Value.str "AirDrop or Invest"]]
  else []

/-- Lines 381-384: create every sheet of `SHEET_ORDER` that is missing
(`create_sheet` appends at the end of the workbook). -/
def ensureSheets (wb : Workbook) : Workbook :=
  sheetOrder.foldl
    (fun w n => if n ∈ wbNames w then w else w ++ [(n, initSheet n)]) wb

/-- A normalized DataFrame handed to the synchronizer. -/
structure Table where
  cols : List String
  rows : List (List Value)
deriving DecidableEq, Repr

/-- Writing a DataFrame into a cleared sheet: header row (the column
names) followed by the data rows. -/
def tableGrid (t : Table) : Grid := (t.cols.map Value.str) :: t.rows

/-- Everything fetched this run (`all_data`): the fresh portfolio price
pairs and the four optional normalized tables (`None` models both a
missing dictionary key and a failed fetch; an empty table models
`df.empty`). -/
structure AllData where
  currentPortfolio : List (Value × Value)
  marketOverview : Option Table
  globalMetrics : Option Table
  fearGreed : Option Table
  historical : List (String × Table)

/-- Pad a list on the right to length at least `n`. -/
def padListN (l : List α) (n : ℕ) (x : α) : List α :=
  l ++ List.replicate (n - l.length) x

/-- Write one cell of a grid (0-based row and column), padding with blank
cells as openpyxl does when a cell beyond the current extent is written. -/
def setCellG (g : Grid) (r c : ℕ) (v : Value) : Grid :=
  let g' := padListN g (r + 1) []
  g'.set r ((padListN (g'.getD r []) (c + 1) Value.blank).set c v)

/-- The cell of column `c` in a DataFrame row (`row['c']`). -/
def tcell (t : Table) (row : List Value) (c : String) : Value :=
  row.getD (t.cols.indexOf c) Value.blank

/-- Decimal digit string of `n` with thousands separators (`f"{n:,}"`). -/
def commaGrouped (n : ℕ) : String :=
  String.mk
    (((toString n).data.reverse.enum.map
        (fun p => if p.1 ≠ 0 ∧ p.1 % 3 = 0 then [',', p.2] else [p.2])).flatten.reverse)

/-- Sign-aware thousands-grouped rendering of an integer. -/
def intGrouped (z : ℤ) : String :=
  (if z < 0 then "-" else "") ++ commaGrouped z.natAbs

/-- `f"{q:.2f}"`: round half to even at 2 decimals and render with exactly
two digits after the point. -/
def fmtFixed2 (q : ℚ) : String :=
  let z := roundNumDen (q.num * 100) (q.den : ℤ)
  let s := z.natAbs
  (if z < 0 then "-" else "") ++ toString (s / 100) ++ "." ++
    (if s % 100 < 10 then "0" else "") ++ toString (s % 100)

/-- Lines 436-443 (also 331-339): the dashboard's display string for one
global metric: `N/A` for a missing value, two-decimal percentage when the
metric name contains `%`, dollar-grouped when it contains `USD`, plain
thousands-grouped integer (truncated) otherwise.  (Metric cells produced
by `get_global_metrics` are strings and values are numeric-or-`NaN`; other
cell shapes render as on the numeric path with a blank treated as
missing.) -/
def strHasSub (s pat : String) : Bool :=
  (List.range (s.data.length + 1)).any
    (fun i => List.isPrefixOf pat.data (s.data.drop i))

def metricDisplay (metric v : Value) : String :=
  let name := match metric with | Value.str s => s | _ => ""
  match v with
  | Value.num q =>
    if strHasSub name "%" then fmtFixed2 q ++ "%"
    else if strHasSub name "USD" then
      "$" ++ intGrouped (roundNumDen q.num (q.den : ℤ))
    else intGrouped (truncToInt q)
  | Value.str _ => "N/A"
  | Value.blank => "N/A"

/-- Rendering of a cell inside an f-string with an `N/A` fallback for a
missing value (lines 467-468); the sentiment index is an integer. -/
def renderCell : Value → String
  | Value.num q => toString q.num
  | Value.str s => s
  | Value.blank => "N/A"

/-- Lines 427-453: the key-metrics block of the dashboard. -/
def dashGM (g : Grid) (gm : Option Table) : Grid :=
  match gm with
  | some t =>
    if t.rows.isEmpty then
      setCellG g 5 0 (Value.str "Unable to fetch global metrics")
    else
      t.rows.enum.foldl
        (fun g' p =>
          let m := tcell t p.2 "Metric"
          let g'' := setCellG g' (5 + p.1) 0 m
          setCellG g'' (5 + p.1) 1
            (Value.str (metricDisplay m (tcell t p.2 "Value"))))
        g
  | none => setCellG g 5 0 (Value.str "Unable to fetch global metrics")

/-- Lines 460-479: the sentiment block of the dashboard (reads the last
row of the sentiment table). -/
def dashFng (g : Grid) (fng : Option Table) : Grid :=
  match fng with
  | some t =>
    if t.rows.isEmpty then
      setCellG g 5 3 (Value.str "Unable to fetch sentiment data")
    else
      let lastRow := t.rows.getLastD []
      let v := tcell t lastRow "Fear & Greed Index"
      let cl := tcell t lastRow "Classification"
      let g1 :=
        setCellG g 5 3 (Value.str ("Fear & Greed Index: " ++ renderCell v))
      setCellG g1 6 3 (Value.str ("Classification: " ++ renderCell cl))
  | none => setCellG g 5 3 (Value.str "Unable to fetch sentiment data")

/-- Lines 412-479: the Executive Dashboard content, rebuilt from scratch
on every run (its sheet is cleared first). -/
def dashboardGrid (now : String) (gm fng : Option Table) : Grid :=
  let g1 := setCellG [] 0 0 (Value.str "Cryptocurrency Market Dashboard")
  let g2 := setCellG g1 2 0 (Value.str ("Generated: " ++ now))
  let g3 := setCellG g2 4 0 (Value.str "🔑 Key Market Metrics")
  let g4 := dashGM g3 gm
  let g5 := setCellG g4 4 3 (Value.str "😰 Market Sentiment")
  dashFng g5 fng

/-- The replace-if-fresh pattern used for the Market Overview (line 483),
Global Metrics (line 573) and Fear & Greed (line 610) sheets: when the
table exists and is non-empty the sheet content is cleared and replaced,
otherwise the sheet is left untouched. -/
def replaceIfFresh (wb : Workbook) (name : String) (t : Option Table) :
    Workbook :=
  match t with
  | some tb => if tb.rows.isEmpty then wb else wbSet wb name (tableGrid tb)
  | none => wb

/-- Lines 645-657: per-symbol history sheets; written only when the sheet
name is already present in the workbook and the table is non-empty. -/
def updateHistorical (wb : Workbook) (hist : List (String × Table)) :
    Workbook :=
  hist.foldl
    (fun w p =>
      if histSheetName p.1 ∈ wbNames w ∧ p.2.rows ≠ [] then
        wbSet w (histSheetName p.1) (tableGrid p.2)
      else w)
    wb

/-- Lines 725-770: the gated portfolio merge. -/
def updatePortfolio (wb : Workbook) (fresh : List (Value × Value)) :
    Workbook :=
  if fresh.isEmpty then wb
  else
    wbSet wb currentPortfolioSheetName
      (mergePortfolioSheet ((wbGet wb currentPortfolioSheetName).getD [])
        fresh)

/-- Lines 772-777: move every sheet of `SHEET_ORDER` to its fixed
position; sheets outside the fixed list end up after them, keeping their
relative order. -/
def reorderSheets (wb : Workbook) : Workbook :=
  (sheetOrder.filterMap (fun n => (wbGet wb n).map (fun g => (n, g)))) ++
    wb.filter (fun p => !(sheetOrder.contains p.1))

/-- The whole of `create_or_update_excel` on an already-loaded workbook
(`wb = []` models the fresh-workbook fallback of lines 364-378; `now` is
the generation timestamp string). -/
def createOrUpdateExcel (wb : Workbook) (d : AllData) (now : String) :
    Workbook :=
  let w1 := ensureSheets wb
  let w2 := wbSet w1 executiveDashboardSheetName
    (dashboardGrid now d.globalMetrics d.fearGreed)
  let w3 := replaceIfFresh w2 marketOverviewSheetName d.marketOverview
  let w4 := replaceIfFresh w3 globalMetricsSheetName d.globalMetrics
  let w5 := replaceIfFresh w4 fearGreedSheetName d.fearGreed
  let w6 := updateHistorical w5 d.historical
  let w7 := updatePortfolio w6 d.currentPortfolio
  reorderSheets w7

/-- A run in which every fetch failed. -/
def noData : AllData := ⟨[], none, none, none, []⟩

example :
    wbNames (createOrUpdateExcel [] noData "2026-01-01 00:00:00") =
      sheetOrder := by decide

example : commaGrouped 1234567 = "1,234,567" := by decide

example : fmtFixed2 ⟨617, 50, by decide, by decide⟩ = "12.34" := by decide

example :
    metricDisplay (Value.str "Bitcoin Dominance (%)")
      (Value.num ⟨617, 50, by decide, by decide⟩) = "12.34%" := by decide

/-! ## Theorems -/

/-- C7 (code bug, evaluating the code at the failing input): when
`requests.get` raises on the very first attempt so that no response was
ever bound, the `except` handler reads the unbound `response` variable and
the function escapes with an `UnboundLocalError` (after exactly one
request and no sleeping) instead of returning a failure result as the
specification requires. -/
theorem C7_first_attempt_connection_failure_crashes :
    makeApiCallWithRetry (fun _ => Attempt.connFail) (fun _ => 0) 5 5 =
      (FetchOutcome.crash, 0, 1) := rfl

/-- C6: with rate-limited responses on the first two attempts and a
success on the third (and `max_retries = 5`), the fetcher returns the
successful payload, and — the jitter added to each sleep being drawn from
`[0, 1)` — the total time slept is at least
`initial_delay + initial_delay * backoff_factor`. -/
theorem C6_success_on_third_attempt_after_rate_limits
    (attempts : ℕ → Attempt) (jitter : ℕ → ℚ) (p : ℕ) (d0 : ℚ)
    (h0 : attempts 0 = Attempt.httpFail 429)
    (h1 : attempts 1 = Attempt.httpFail 429)
    (h2 : attempts 2 = Attempt.success p)
    (hj : ∀ i, 0 ≤ jitter i ∧ jitter i < 1) :
    (makeApiCallWithRetry attempts jitter 5 d0).1 = FetchOutcome.payload p ∧
      d0 + d0 * backoffFactor ≤ (makeApiCallWithRetry attempts jitter 5 d0).2.1 := by
  have s1 : makeApiCallWithRetry attempts jitter 5 d0 =
      retryAux attempts jitter 4 1 (some 429) (d0 * backoffFactor)
        (0 + d0 + jitter 0) 1 := by
    show retryAux attempts jitter (4 + 1) 0 none d0 0 0 = _
    rw [retryAux, h0]
    rfl
  have s2 : retryAux attempts jitter 4 1 (some 429) (d0 * backoffFactor)
      (0 + d0 + jitter 0) 1 =
      retryAux attempts jitter 3 2 (some 429) (d0 * backoffFactor * backoffFactor)
        (0 + d0 + jitter 0 + d0 * backoffFactor + jitter 1) 2 := by
    show retryAux attempts jitter (3 + 1) 1 _ _ _ 1 = _
    rw [retryAux, h1]
    rfl
  have s3 : retryAux attempts jitter 3 2 (some 429)
      (d0 * backoffFactor * backoffFactor)
      (0 + d0 + jitter 0 + d0 * backoffFactor + jitter 1) 2 =
      (FetchOutcome.payload p,
        0 + d0 + jitter 0 + d0 * backoffFactor + jitter 1, 3) := by
    show retryAux attempts jitter (2 + 1) 2 _ _ _ 2 = _
    rw [retryAux, h2]
  rw [s1, s2, s3]
  refine ⟨rfl, ?_⟩
  have j0 := (hj 0).1
  have j1 := (hj 1).1
  simp only
  linarith

/-- Attempt trace for the C6 witness: two rate limits then success. -/
def c6Attempts : ℕ → Attempt := fun i =>
  if i < 2 then Attempt.httpFail 429 else Attempt.success 42

/-- Jitter trace for the C6 witness. -/
def c6Jitter : ℕ → ℚ := fun _ => 1 / 2

theorem C6_success_on_third_attempt_after_rate_limits_witness :
    (c6Attempts 0 = Attempt.httpFail 429 ∧
      c6Attempts 1 = Attempt.httpFail 429 ∧
      c6Attempts 2 = Attempt.success 42) ∧
    ((makeApiCallWithRetry c6Attempts c6Jitter 5 5).1 =
        FetchOutcome.payload 42 ∧
      5 + 5 * backoffFactor ≤ (makeApiCallWithRetry c6Attempts c6Jitter 5 5).2.1) :=
  ⟨⟨rfl, rfl, rfl⟩,
    C6_success_on_third_attempt_after_rate_limits c6Attempts c6Jitter 42 5
      rfl rfl rfl
      (fun _ => ⟨by norm_num [c6Jitter], by norm_num [c6Jitter]⟩)⟩

/-- C9 (amended): for every sentiment payload the normalized table is
ordered ascending by date and re-sorting it leaves it unchanged, but no
deduplication is performed — the table has exactly one row per input
record, so several records on the same date yield several rows. -/
theorem C9_sorted_and_resort_stable_no_dedup (records : List FngRecord) :
    List.Sorted fngLE (getFearGreedIndex records) ∧
      List.insertionSort fngLE (getFearGreedIndex records) =
        getFearGreedIndex records ∧
      (getFearGreedIndex records).length = records.length := by
  refine ⟨List.sorted_insertionSort fngLE _,
    (List.sorted_insertionSort fngLE _).insertionSort_eq, ?_⟩
  calc (getFearGreedIndex records).length
      = (records.map (fun r =>
          ({ date := epochSecToDay r.timestamp, value := r.value,
             classification := r.classification } : FngRow))).length :=
        (List.perm_insertionSort fngLE _).length_eq
    _ = records.length := List.length_map _ _

/-- Payload with two records on the same calendar day. -/
def c9Records : List FngRecord :=
  [⟨some 20, "Fear", 86400⟩, ⟨some 70, "Greed", 90000⟩]

/-- C9 counterexample: two records with timestamps on the same day both
survive into the output — the dates are not deduplicated, refuting the
"at most one row per date" part of the claim. -/
theorem C9_counterexample :
    (getFearGreedIndex c9Records).map (fun r => r.date) = [1, 1] ∧
      ¬ ((getFearGreedIndex c9Records).map (fun r => r.date)).Nodup := by
  decide

theorem range_map_getD (n i : ℕ) (f : ℕ → α) (d : α) (hi : i < n) :
    ((List.range n).map f).getD i d = f i := by
  rw [List.getD_eq_getElem?_getD, List.getElem?_map, List.getElem?_range hi]
  rfl

theorem getD_take (l : List α) (n i : ℕ) (d : α) (hi : i < n) :
    (l.take n).getD i d = l.getD i d := by
  rw [List.getD_eq_getElem?_getD, List.getD_eq_getElem?_getD,
    List.getElem?_take, if_pos hi]

theorem getD_map_lt (f : α → β) (l : List α) (i : ℕ) (d : β) (d' : α)
    (hi : i < l.length) : (l.map f).getD i d = f (l.getD i d') := by
  rw [List.getD_eq_getElem?_getD, List.getElem?_map,
    List.getElem?_eq_getElem hi, List.getD_eq_getElem?_getD,
    List.getElem?_eq_getElem hi]
  rfl

/-- C8: the historical-series normalizer truncates the three raw series to
the length of the shortest before pairing by index — the table has exactly
`min` many rows, and row `i` is built from the `i`-th element of each
series (so lengths 30, 28, 29 give exactly 28 rows from the first 28
elements of each). -/
theorem C8_truncation_to_shortest (p v m : List (ℤ × Option ℚ)) :
    (getHistoricalData p v m).length =
        min (min p.length v.length) m.length ∧
      ∀ i,
        i < min (min p.length v.length) m.length →
          ((getHistoricalData p v m).getD i histDefault).date =
              epochMsToDay (p.getD i (0, none)).1 ∧
            ((getHistoricalData p v m).getD i histDefault).price =
              ((p.getD i (0, none)).2).map (roundq 4) ∧
            ((getHistoricalData p v m).getD i histDefault).volume =
              ((v.getD i (0, none)).2).map truncToInt ∧
            ((getHistoricalData p v m).getD i histDefault).marketCap =
              ((m.getD i (0, none)).2).map truncToInt := by
  constructor
  · simp [getHistoricalData]
  · intro i hi
    have hpt : i < (p.take (min (min p.length v.length) m.length)).length := by
      simp only [List.length_take]
      omega
    simp only [getHistoricalData]
    rw [range_map_getD _ _ _ _ hi]
    dsimp only
    refine ⟨by rw [getD_take _ _ _ _ hi], ?_, by rw [getD_take _ _ _ _ hi],
      by rw [getD_take _ _ _ _ hi]⟩
    rw [getD_map_lt _ _ _ _ (0, none) hpt, getD_take _ _ _ _ hi]

/-- Raw price series of length 30 for the C8 witness. -/
def c8Prices : List (ℤ × Option ℚ) :=
  (List.range 30).map (fun k => ((k : ℤ), some (k : ℚ)))

/-- Raw volume series of length 28 for the C8 witness. -/
def c8Volumes : List (ℤ × Option ℚ) :=
  (List.range 28).map (fun k => ((k : ℤ), some (k : ℚ)))

/-- Raw market-cap series of length 29 for the C8 witness. -/
def c8Mcaps : List (ℤ × Option ℚ) :=
  (List.range 29).map (fun k => ((k : ℤ), some (k : ℚ)))

theorem C8_truncation_to_shortest_witness :
    5 < min (min c8Prices.length c8Volumes.length) c8Mcaps.length ∧
      (getHistoricalData c8Prices c8Volumes c8Mcaps).length = 28 ∧
      ((getHistoricalData c8Prices c8Volumes c8Mcaps).getD 5 histDefault).date =
        epochMsToDay (c8Prices.getD 5 (0, none)).1 := by
  have hp : c8Prices.length = 30 := by decide
  have hv : c8Volumes.length = 28 := by decide
  have hm : c8Mcaps.length = 29 := by decide
  have h := C8_truncation_to_shortest c8Prices c8Volumes c8Mcaps
  refine ⟨by rw [hp, hv, hm]; norm_num, ?_,
    (h.2 5 (by rw [hp, hv, hm]; norm_num)).1⟩
  rw [h.1, hp, hv, hm]
  decide

/-- Specification-level round half to even, phrased with `⌊·⌋` (used to
reason about `roundNumDen`). -/
def rheVal (x : ℚ) : ℤ :=
  if x - ⌊x⌋ < 1/2 then ⌊x⌋
  else if 1/2 < x - ⌊x⌋ then ⌊x⌋ + 1
  else if ⌊x⌋ % 2 = 0 then ⌊x⌋ else ⌊x⌋ + 1

theorem roundNumDen_eq_rheVal (n : ℤ) (d : ℕ) (hd : 0 < d) :
    roundNumDen n (d : ℤ) = rheVal ((n : ℚ) / (d : ℚ)) := by
  have hd' : (0 : ℚ) < (d : ℚ) := by exact_mod_cast hd
  have hf : n / (d : ℤ) = ⌊(n : ℚ) / (d : ℚ)⌋ :=
    (Rat.floor_intCast_div_natCast n d).symm
  have key : ∀ A : ℤ, ((A : ℚ) / (d : ℚ) < 1/2 ↔ 2 * A < (d : ℤ)) := by
    intro A
    rw [div_lt_div_iff₀ hd' (by norm_num : (0:ℚ) < 2)]
    constructor
    · intro h
      have h2 : (2 * A : ℚ) < (d : ℚ) := by push_cast at h ⊢; linarith
      exact_mod_cast h2
    · intro h
      have h2 : (2 * A : ℚ) < (d : ℚ) := by exact_mod_cast h
      push_cast at h2 ⊢
      linarith
  have key2 : ∀ A : ℤ, (1/2 < (A : ℚ) / (d : ℚ) ↔ (d : ℤ) < 2 * A) := by
    intro A
    rw [div_lt_div_iff₀ (by norm_num : (0:ℚ) < 2) hd']
    constructor
    · intro h
      have h2 : (d : ℚ) < (2 * A : ℚ) := by push_cast at h ⊢; linarith
      exact_mod_cast h2
    · intro h
      have h2 : (d : ℚ) < (2 * A : ℚ) := by exact_mod_cast h
      push_cast at h2 ⊢
      linarith
  have hsub : (n : ℚ) / (d : ℚ) - (⌊(n : ℚ) / (d : ℚ)⌋ : ℚ) =
      ((n - n / (d : ℤ) * (d : ℤ) : ℤ) : ℚ) / (d : ℚ) := by
    rw [← hf]
    push_cast
    field_simp
    ring
  simp only [roundNumDen, rheVal]
  simp only [hsub]
  simp only [← hf]
  simp only [key, key2]

theorem rheVal_intCast (z : ℤ) : rheVal (z : ℚ) = z := by
  simp [rheVal, Int.floor_intCast]

theorem roundq_eq_rheVal (dec : ℕ) (q : ℚ) :
    roundq dec q = (rheVal (q * 10 ^ dec) : ℚ) / 10 ^ dec := by
  unfold roundq
  congr 2
  rw [roundNumDen_eq_rheVal (q.num * 10 ^ dec) q.den q.pos]
  congr 1
  push_cast
  rw [← div_mul_eq_mul_div, Rat.num_div_den]

theorem roundq_idem (dec : ℕ) (q : ℚ) :
    roundq dec (roundq dec q) = roundq dec q := by
  rw [roundq_eq_rheVal dec (roundq dec q)]
  show (rheVal ((roundNumDen (q.num * 10 ^ dec) ((q.den : ℤ)) : ℚ) / 10 ^ dec
      * 10 ^ dec) : ℚ) / 10 ^ dec = _
  rw [div_mul_cancel₀ _ (show ((10:ℚ)) ^ dec ≠ 0 by positivity), rheVal_intCast]
  rfl

theorem take_one_of_pos (l : List α) (d : α) (h : 0 < l.length) :
    l.take 1 = [l.getD 0 d] := by
  cases l with
  | nil => simp at h
  | cons a t => rfl

theorem listMean_singleton (a : ℚ) : listMean [a] = a := by
  simp [listMean]

theorem rollingWindow_zero (l : List α) (w : ℕ) (hw : 1 ≤ w) (d : α)
    (h : 0 < l.length) : rollingWindow l w 0 = [l.getD 0 d] := by
  unfold rollingWindow
  rw [show 0 + 1 - w = 0 by omega, List.drop_zero, take_one_of_pos l d h]

theorem rollingMeanAt_zero (ps : List (Option ℚ)) (w : ℕ) (hw : 1 ≤ w)
    (h : 0 < ps.length) : rollingMeanAt w ps 0 = ps.getD 0 none := by
  unfold rollingMeanAt
  rw [rollingWindow_zero ps w hw none h]
  cases hc : ps.getD 0 none with
  | none => simp
  | some a => simp [listMean_singleton]

theorem priceCol_roundq_fixed (p : List (ℤ × Option ℚ)) (N i : ℕ)
    (hi : i < ((p.take N).map (fun pp => (pp.2).map (roundq 4))).length) :
    (((p.take N).map (fun pp => (pp.2).map (roundq 4))).getD i none).map
        (roundq 4) =
      ((p.take N).map (fun pp => (pp.2).map (roundq 4))).getD i none := by
  rw [getD_map_lt _ _ _ _ (0, none) (by simpa using hi)]
  cases ((p.take N).getD i (0, none)).2 with
  | none => rfl
  | some a => simp [roundq_idem]

/-- C5 (amended): in the normalized historical table with N ≥ 1 rows,
row 0 always has the daily-return and 7-day-volatility columns null; with
N = 1 every derived column of row 0 is null; but with N ≥ 2 the 7- and
30-day moving averages at row 0 equal the row-0 price (the code computes
them with `min_periods=1`), so they are null only when the price is. -/
theorem C5_row0_derived_columns (p v m : List (ℤ × Option ℚ))
    (h1 : 1 ≤ (getHistoricalData p v m).length) :
    ((getHistoricalData p v m).getD 0 histDefault).dailyReturn = none ∧
      ((getHistoricalData p v m).getD 0 histDefault).vol7 = none ∧
      ((getHistoricalData p v m).length = 1 →
        ((getHistoricalData p v m).getD 0 histDefault).ma7 = none ∧
          ((getHistoricalData p v m).getD 0 histDefault).ma30 = none) ∧
      (2 ≤ (getHistoricalData p v m).length →
        ((getHistoricalData p v m).getD 0 histDefault).ma7 =
            ((getHistoricalData p v m).getD 0 histDefault).price ∧
          ((getHistoricalData p v m).getD 0 histDefault).ma30 =
            ((getHistoricalData p v m).getD 0 histDefault).price) := by
  have hlen : (getHistoricalData p v m).length =
      min (min p.length v.length) m.length := by simp [getHistoricalData]
  rw [hlen] at h1
  have h0 : 0 < min (min p.length v.length) m.length := h1
  have hplen : min (min p.length v.length) m.length ≤ p.length := by omega
  have hpslen :
      ((p.take (min (min p.length v.length) m.length)).map
        (fun pp => (pp.2).map (roundq 4))).length =
      min (min p.length v.length) m.length := by
    simp only [List.length_map, List.length_take]
    omega
  refine ⟨?_, ?_, ?_, ?_⟩
  · simp only [getHistoricalData]
    rw [range_map_getD _ _ _ _ h0]
    dsimp only
    by_cases hc : min (min p.length v.length) m.length ≤ 1
    · rw [if_pos hc]
    · rw [if_neg hc]
      simp [dailyReturnAt]
  · simp only [getHistoricalData]
    rw [range_map_getD _ _ _ _ h0]
    dsimp only
    by_cases hc : min (min p.length v.length) m.length ≤ 1
    · rw [if_pos hc]
    · rw [if_neg hc]
      have hw : rollingWindow
          ((List.range (min (min p.length v.length) m.length)).map
            (dailyReturnAt
              ((p.take (min (min p.length v.length) m.length)).map
                (fun pp => (pp.2).map (roundq 4))))) 7 0 =
          [dailyReturnAt
            ((p.take (min (min p.length v.length) m.length)).map
              (fun pp => (pp.2).map (roundq 4))) 0] := by
        rw [rollingWindow_zero _ 7 (by norm_num) none
          (by simpa using h0), range_map_getD _ _ _ _ h0]
      rw [rollingVarAt, hw]
      simp [dailyReturnAt]
  · intro hEq
    rw [hlen] at hEq
    constructor
    · simp only [getHistoricalData]
      rw [range_map_getD _ _ _ _ h0]
      dsimp only
      rw [if_pos (by omega)]
    · simp only [getHistoricalData]
      rw [range_map_getD _ _ _ _ h0]
      dsimp only
      rw [if_pos (by omega)]
  · intro hge
    rw [hlen] at hge
    constructor
    · simp only [getHistoricalData]
      rw [range_map_getD _ _ _ _ h0]
      dsimp only
      rw [if_neg (by omega),
        rollingMeanAt_zero _ 7 (by norm_num) (by rw [hpslen]; exact h0),
        priceCol_roundq_fixed _ _ _ (by rw [hpslen]; exact h0)]
    · simp only [getHistoricalData]
      rw [range_map_getD _ _ _ _ h0]
      dsimp only
      rw [if_neg (by omega),
        rollingMeanAt_zero _ 30 (by norm_num) (by rw [hpslen]; exact h0),
        priceCol_roundq_fixed _ _ _ (by rw [hpslen]; exact h0)]

/-- Price series for the C5 instances: two rows, prices present. -/
def c5P : List (ℤ × Option ℚ) := [(0, some 1), (86400000, some 2)]

/-- Volume series for the C5 instances. -/
def c5V : List (ℤ × Option ℚ) := [(0, some 5), (86400000, some 6)]

/-- Market-cap series for the C5 instances. -/
def c5M : List (ℤ × Option ℚ) := [(0, some 7), (86400000, some 8)]

/-- C5 counterexample: with two rows and prices present, the 7-day moving
average at row 0 is populated (it equals the row-0 price), refuting the
claim that every derived column of row 0 is null. -/
theorem C5_counterexample :
    (getHistoricalData c5P c5V c5M).length = 2 ∧
      ((getHistoricalData c5P c5V c5M).getD 0 histDefault).ma7 ≠ none := by
  decide

theorem C5_row0_derived_columns_witness :
    1 ≤ (getHistoricalData c5P c5V c5M).length ∧
      ((getHistoricalData c5P c5V c5M).getD 0 histDefault).dailyReturn =
          none ∧
        ((getHistoricalData c5P c5V c5M).getD 0 histDefault).vol7 = none ∧
        ((getHistoricalData c5P c5V c5M).getD 0 histDefault).ma7 =
          ((getHistoricalData c5P c5V c5M).getD 0 histDefault).price := by
  have h := C5_row0_derived_columns c5P c5V c5M (by decide)
  exact ⟨by decide, h.1, h.2.1, (h.2.2.2 (by decide)).1⟩

theorem range_map_getD_self (l : List α) (d : α) :
    (List.range l.length).map (fun i => l.getD i d) = l := by
  apply List.ext_getElem
  · simp
  · intro i h1 h2
    have hi : i < l.length := h2
    simp [List.getD_eq_getElem?_getD, List.getElem?_eq_getElem hi]

theorem filterMap_id_of_isSome (w : List (Option ℚ))
    (h : ∀ x ∈ w, x.isSome) :
    w.filterMap id = w.map (fun o => o.getD 0) := by
  induction w with
  | nil => rfl
  | cons a t ih =>
    cases a with
    | none => exact absurd (h none (by simp)) (by simp)
    | some b =>
      simp only [List.filterMap_cons, List.map_cons]
      rw [ih (fun x hx => h x (by simp [hx]))]
      rfl

theorem rollingWindow_map (f : α → β) (l : List α) (w i : ℕ) :
    rollingWindow (l.map f) w i = (rollingWindow l w i).map f := by
  unfold rollingWindow
  rw [← List.map_take, ← List.map_drop]

/-- C4 (amended): for a normalized historical series of length N ≥ 7 with
all prices present, the stored 7-day moving average at every row i equals
the arithmetic mean of the table's price values at rows max(0, i-6)..i
rounded half-to-even to 4 decimal places (the code rounds the column with
`.round(4)` before storing, line 258). -/
theorem C4_ma7_rounded_window_mean (p v m : List (ℤ × Option ℚ))
    (h7 : 7 ≤ (getHistoricalData p v m).length)
    (hp : ∀ j, j < (getHistoricalData p v m).length →
      (((getHistoricalData p v m).getD j histDefault).price).isSome = true) :
    ∀ i, i < (getHistoricalData p v m).length →
      ((getHistoricalData p v m).getD i histDefault).ma7 =
        some (roundq 4 (listMean (rollingWindow
          ((getHistoricalData p v m).map (fun r => (r.price).getD 0))
          7 i))) := by
  have hlen : (getHistoricalData p v m).length =
      min (min p.length v.length) m.length := by simp [getHistoricalData]
  have h7' : 7 ≤ min (min p.length v.length) m.length := by
    rw [hlen] at h7; exact h7
  have hps_len :
      ((p.take (min (min p.length v.length) m.length)).map
        (fun pp => (pp.2).map (roundq 4))).length =
      min (min p.length v.length) m.length := by
    simp only [List.length_map, List.length_take]
    omega
  have hps : ∀ j, j < min (min p.length v.length) m.length →
      ((getHistoricalData p v m).getD j histDefault).price =
      ((p.take (min (min p.length v.length) m.length)).map
        (fun pp => (pp.2).map (roundq 4))).getD j none := by
    intro j hj
    simp only [getHistoricalData]
    rw [range_map_getD _ _ _ _ hj]
  have hsome : ∀ x ∈ (p.take (min (min p.length v.length) m.length)).map
      (fun pp => (pp.2).map (roundq 4)), x.isSome := by
    intro x hx
    obtain ⟨j, hj, rfl⟩ := List.mem_iff_getElem.mp hx
    have hj' : j < min (min p.length v.length) m.length := by
      rw [← hps_len]; exact hj
    have h := hp j (by rw [hlen]; exact hj')
    rw [hps j hj'] at h
    rw [List.getD_eq_getElem?_getD, List.getElem?_eq_getElem hj] at h
    exact h
  have hRange : (List.range (min (min p.length v.length) m.length)).map
      (fun i => ((p.take (min (min p.length v.length) m.length)).map
        (fun pp => (pp.2).map (roundq 4))).getD i none) =
      (p.take (min (min p.length v.length) m.length)).map
        (fun pp => (pp.2).map (roundq 4)) := by
    have h := range_map_getD_self
      ((p.take (min (min p.length v.length) m.length)).map
        (fun pp => (pp.2).map (roundq 4))) (none : Option ℚ)
    rw [hps_len] at h
    exact h
  have hTmap : (getHistoricalData p v m).map (fun r => (r.price).getD 0) =
      ((p.take (min (min p.length v.length) m.length)).map
        (fun pp => (pp.2).map (roundq 4))).map (fun o => o.getD 0) := by
    simp only [getHistoricalData]
    rw [List.map_map]
    conv_rhs => rw [← hRange]
    rw [List.map_map]
    rfl
  have hma : ∀ i, i < min (min p.length v.length) m.length →
      ((getHistoricalData p v m).getD i histDefault).ma7 =
      (rollingMeanAt 7 ((p.take (min (min p.length v.length) m.length)).map
        (fun pp => (pp.2).map (roundq 4))) i).map (roundq 4) := by
    intro i hi
    simp only [getHistoricalData]
    rw [range_map_getD _ _ _ _ hi]
    dsimp only
    rw [if_neg (by omega)]
  intro i hi
  rw [hlen] at hi
  rw [hma i hi, hTmap, rollingWindow_map]
  have hwin_some : ∀ x ∈ rollingWindow
      ((p.take (min (min p.length v.length) m.length)).map
        (fun pp => (pp.2).map (roundq 4))) 7 i, x.isSome := by
    intro x hx
    exact hsome x
      (List.mem_of_mem_take (List.mem_of_mem_drop hx))
  have hwlen : 0 < (rollingWindow
      ((p.take (min (min p.length v.length) m.length)).map
        (fun pp => (pp.2).map (roundq 4))) 7 i).length := by
    unfold rollingWindow
    simp only [List.length_drop, List.length_take]
    rw [hps_len]
    omega
  unfold rollingMeanAt
  rw [filterMap_id_of_isSome _ hwin_some]
  rw [if_neg (by
    simp only [List.isEmpty_iff]
    intro hnil
    rw [← List.length_eq_zero] at hnil
    rw [List.length_map] at hnil
    omega)]
  rfl

/-- Price series for the C4 instances: seven rows, integer prices with one
outlier so that the window mean is not representable in 4 decimals. -/
def c4P : List (ℤ × Option ℚ) :=
  [(0, some 1), (1, some 1), (2, some 1), (3, some 1), (4, some 1),
   (5, some 1), (6, some 2)]

/-- Volume series for the C4 instances. -/
def c4V : List (ℤ × Option ℚ) :=
  [(0, some 1), (1, some 1), (2, some 1), (3, some 1), (4, some 1),
   (5, some 1), (6, some 1)]

/-- Market-cap series for the C4 instances. -/
def c4M : List (ℤ × Option ℚ) :=
  [(0, some 1), (1, some 1), (2, some 1), (3, some 1), (4, some 1),
   (5, some 1), (6, some 1)]

/-- C4 counterexample: a 7-row series with all prices present in which the
stored 7-day moving average at row 6 is the rounded mean 1.1429, not the
exact arithmetic mean 8/7 of the price values — the claim's exact equality
fails because the code rounds the column to 4 decimals. -/
theorem C4_counterexample :
    (getHistoricalData c4P c4V c4M).length = 7 ∧
      ((getHistoricalData c4P c4V c4M).all (fun r => (r.price).isSome)) =
        true ∧
      ((getHistoricalData c4P c4V c4M).getD 6 histDefault).ma7 ≠
        some (listMean (rollingWindow
          ((getHistoricalData c4P c4V c4M).map (fun r => (r.price).getD 0))
          7 6)) := by
  have h1r : roundq 4 (1 : ℚ) = 1 := by
    rw [roundq_eq_rheVal,
      show ((1 : ℚ) * 10 ^ 4) = ((10000 : ℤ) : ℚ) by norm_num,
      rheVal_intCast]
    norm_num
  have h2r : roundq 4 (2 : ℚ) = 2 := by
    rw [roundq_eq_rheVal,
      show ((2 : ℚ) * 10 ^ 4) = ((20000 : ℤ) : ℚ) by norm_num,
      rheVal_intCast]
    norm_num
  refine ⟨by decide, by decide, ?_⟩
  have hma : ((getHistoricalData c4P c4V c4M).getD 6 histDefault).ma7 =
      some (roundq 4 (listMean [roundq 4 1, roundq 4 1, roundq 4 1,
        roundq 4 1, roundq 4 1, roundq 4 1, roundq 4 2])) := rfl
  have hwin : rollingWindow
      ((getHistoricalData c4P c4V c4M).map (fun r => (r.price).getD 0))
      7 6 =
      [roundq 4 1, roundq 4 1, roundq 4 1, roundq 4 1, roundq 4 1,
        roundq 4 1, roundq 4 2] := rfl
  rw [hma, hwin, h1r, h2r]
  have hmean : listMean [(1 : ℚ), 1, 1, 1, 1, 1, 2] = 8 / 7 := by
    norm_num [listMean]
  rw [hmean]
  have hfl : ⌊(8 / 7 * 10 ^ 4 : ℚ)⌋ = 11428 := by
    rw [Int.floor_eq_iff]
    norm_num
  have hrv : rheVal (8 / 7 * 10 ^ 4 : ℚ) = 11429 := by
    simp only [rheVal, hfl]
    norm_num
  rw [roundq_eq_rheVal, hrv]
  intro h
  rw [Option.some_inj] at h
  norm_num at h

theorem C4_ma7_rounded_window_mean_witness :
    7 ≤ (getHistoricalData c4P c4V c4M).length ∧
      ((getHistoricalData c4P c4V c4M).getD 6 histDefault).ma7 =
        some (roundq 4 (listMean (rollingWindow
          ((getHistoricalData c4P c4V c4M).map (fun r => (r.price).getD 0))
          7 6))) :=
  ⟨by decide,
    C4_ma7_rounded_window_mean c4P c4V c4M (by decide) (by decide) 6
      (by decide)⟩

theorem fillStep_cols_mono (d : PFrame) (c x : Value) (hx : x ∈ d.cols) :
    x ∈ (fillStep d c).cols := by
  unfold fillStep
  split
  · exact hx
  · simp [hx]

theorem fillStep_cols_self (d : PFrame) (c : Value) :
    c ∈ (fillStep d c).cols := by
  unfold fillStep
  split
  · assumption
  · simp

theorem foldl_fillStep_cols_mono (cs : List Value) :
    ∀ (d : PFrame) (x : Value), x ∈ d.cols →
      x ∈ (cs.foldl fillStep d).cols := by
  induction cs with
  | nil => intro d x hx; exact hx
  | cons c t ih =>
    intro d x hx
    exact ih (fillStep d c) x (fillStep_cols_mono d c x hx)

theorem foldl_fillStep_cols_mem (cs : List Value) :
    ∀ (d : PFrame) (c : Value), c ∈ cs → c ∈ (cs.foldl fillStep d).cols := by
  induction cs with
  | nil => intro d c hc; simp at hc
  | cons a t ih =>
    intro d c hc
    rcases List.mem_cons.mp hc with h | h
    · subst h
      exact foldl_fillStep_cols_mono t (fillStep d c) c
        (fillStep_cols_self d c)
    · exact ih (fillStep d a) c h

theorem fill_has_portfolioCols (d : PFrame) :
    ∀ c ∈ portfolioCols, c ∈ (fillPortfolioCols d).cols := by
  intro c hc
  exact foldl_fillStep_cols_mem portfolioCols d c hc

theorem fill_kept_eq (d : PFrame) :
    portfolioCols.filter (fun c => c ∈ (fillPortfolioCols d).cols) =
      portfolioCols := by
  apply List.filter_eq_self.mpr
  intro c hc
  exact decide_eq_true (fill_has_portfolioCols d c hc)

/-- C10: after every run of the portfolio merge, the Current Portfolio
sheet's header row is exactly the fixed column sequence of line 753
(prefixed by `Coin ID`), whatever the previous header was, and every row
of the rewritten sheet has exactly these 10 cells — any previously
existing column outside the fixed list is dropped with its data. -/
theorem C10_fixed_header_and_width (g : Grid)
    (fresh : List (Value × Value)) :
    (mergePortfolioSheet g fresh).headD [] = vCoinID :: portfolioCols ∧
      ∀ r ∈ mergePortfolioSheet g fresh, r.length = 10 := by
  have hkept := fill_kept_eq (mergeLoop (readPortfolio g) fresh)
  constructor
  · simp only [mergePortfolioSheet, writePortfolio, List.headD_cons]
    rw [hkept]
  · intro r hr
    simp only [mergePortfolioSheet, writePortfolio] at hr
    rcases List.mem_cons.mp hr with h | h
    · rw [h, hkept]
      decide
    · obtain ⟨row, hrow, hre⟩ := List.mem_map.mp h
      rw [← hre]
      simp only [List.length_cons, List.length_map]
      rw [hkept]
      decide

/-- Existing sheet for the C10 witness: scrambled header order with an
extraneous `Notes` column. -/
def c10Sheet : Grid :=
  [[Value.str "Notes", vCurrentValue, vCoinID, Value.str "Quantity"],
   [Value.str "memo", Value.num 3, Value.str "bitcoin", Value.num 2]]

/-- Fresh price table for the C10 witness. -/
def c10Fresh : List (Value × Value) :=
  [(Value.str "bitcoin", Value.num 5), (Value.str "solana", Value.num 7)]

theorem C10_fixed_header_and_width_witness :
    (mergePortfolioSheet c10Sheet c10Fresh).headD [] =
        vCoinID :: portfolioCols ∧
      ((mergePortfolioSheet c10Sheet c10Fresh).getD 1 []).length = 10 :=
  ⟨(C10_fixed_header_and_width c10Sheet c10Fresh).1,
    (C10_fixed_header_and_width c10Sheet c10Fresh).2
      ((mergePortfolioSheet c10Sheet c10Fresh).getD 1 []) (by decide)⟩

/-! ## Frame lemmas for the portfolio merge -/

/-- The key of row `i` of a keyed frame. -/
def keyAt (d : PFrame) (i : ℕ) : Value :=
  (d.rows.getD i (Value.blank, [])).1

/-- The cell of column `c` in row `i` of a keyed frame. -/
def valAt (d : PFrame) (i : ℕ) (c : Value) : Value :=
  ((d.rows.getD i (Value.blank, [])).2).getD (d.cols.indexOf c) Value.blank

/-- Well-formedness of a keyed frame: every row is parallel to `cols`. -/
def PFrame.WF (d : PFrame) : Prop :=
  ∀ r ∈ d.rows, r.2.length = d.cols.length

/-- The price the loop leaves in a key's current-value cell: the value of
the key's last occurrence in the fresh table. -/
def lastFreshPrice (fresh : List (Value × Value)) (k : Value) :
    Option Value :=
  fresh.foldl (fun acc kv => if kv.1 = k then some kv.2 else acc) none

theorem lastFresh_foldl (fresh : List (Value × Value)) (k : Value)
    (acc : Option Value) :
    fresh.foldl (fun a kv => if kv.1 = k then some kv.2 else a) acc =
      match lastFreshPrice fresh k with
      | some v => some v
      | none => acc := by
  induction fresh generalizing acc with
  | nil => rfl
  | cons kv t ih =>
    have e1 : (kv :: t).foldl (fun a kv => if kv.1 = k then some kv.2 else a)
        acc =
        t.foldl (fun a kv => if kv.1 = k then some kv.2 else a)
          (if kv.1 = k then some kv.2 else acc) := rfl
    have e2 : lastFreshPrice (kv :: t) k =
        t.foldl (fun a kv => if kv.1 = k then some kv.2 else a)
          (if kv.1 = k then some kv.2 else none) := rfl
    rw [e1, ih, e2, ih]
    cases lastFreshPrice t k with
    | some v => rfl
    | none =>
      by_cases hk : kv.1 = k
      · simp only [if_pos hk]
      · simp only [if_neg hk]

theorem lastFresh_isSome_of_mem (fresh : List (Value × Value)) (k : Value)
    (h : k ∈ fresh.map Prod.fst) : (lastFreshPrice fresh k).isSome := by
  induction fresh with
  | nil => simp at h
  | cons kv t ih =>
    simp only [lastFreshPrice, List.foldl_cons]
    rw [lastFresh_foldl]
    rcases List.mem_cons.mp h with h1 | h1
    · cases hc : lastFreshPrice t k with
      | some v => rfl
      | none => simp [h1.symm]
    · have := ih (by simpa using h1)
      cases hc : lastFreshPrice t k with
      | some v => rfl
      | none => rw [hc] at this; simp at this

theorem lastFresh_none_of_not_mem (fresh : List (Value × Value)) (k : Value)
    (h : k ∉ fresh.map Prod.fst) : lastFreshPrice fresh k = none := by
  induction fresh with
  | nil => rfl
  | cons kv t ih =>
    simp only [lastFreshPrice, List.foldl_cons]
    rw [lastFresh_foldl]
    have h1 : kv.1 ≠ k := by
      intro he; exact h (by simp [← he])
    have h2 : k ∉ t.map Prod.fst := fun hm => h (by simp [hm])
    rw [ih h2]
    simp [h1]

theorem getD_set_ne (l : List α) (i j : ℕ) (a d : α) (h : i ≠ j) :
    (l.set i a).getD j d = l.getD j d := by
  rw [List.getD_eq_getElem?_getD, List.getD_eq_getElem?_getD,
    List.getElem?_set_ne h]

theorem getD_set_self (l : List α) (i : ℕ) (a d : α) (h : i < l.length) :
    (l.set i a).getD i d = a := by
  rw [List.getD_eq_getElem?_getD, List.getElem?_set_self h]
  rfl

theorem indexOf_erase_nodup (l : List Value) (a c : Value) (hnd : l.Nodup)
    (hne : c ≠ a) (hc : c ∈ l) :
    (l.erase a).indexOf c =
      if l.indexOf c < l.indexOf a then l.indexOf c
      else l.indexOf c - 1 := by
  induction l with
  | nil => simp at hc
  | cons x t ih =>
    by_cases hxa : x = a
    · subst hxa
      rw [List.erase_cons_head]
      have hcx : c ≠ x := hne
      rw [List.indexOf_cons_ne t (Ne.symm hcx), List.indexOf_cons_self]
      simp
    · rw [List.erase_cons_tail (by simpa using hxa)]
      by_cases hcx : c = x
      · subst hcx
        rw [List.indexOf_cons_self, List.indexOf_cons_self,
          List.indexOf_cons_ne t hxa]
        simp
      · have hct : c ∈ t := by
          rcases List.mem_cons.mp hc with h | h
          · exact absurd h hcx
          · exact h
        have hnd' : t.Nodup := (List.nodup_cons.mp hnd).2
        rw [List.indexOf_cons_ne (t.erase a) (fun he => hcx he.symm),
          List.indexOf_cons_ne t (fun he => hcx he.symm),
          List.indexOf_cons_ne t hxa,
          ih hnd' hct]
        by_cases hlt : t.indexOf c < t.indexOf a
        · rw [if_pos hlt, if_pos (by omega)]
        · rw [if_neg hlt]
          have htc : 1 ≤ t.indexOf c := by
            rcases Nat.eq_zero_or_pos (t.indexOf c) with h0 | h0
            · exfalso
              by_cases hat : a ∈ t
              · have h1 : t.indexOf a = 0 := by omega
                have hclen : t.indexOf c < t.length :=
                  List.indexOf_lt_length.mpr hct
                have halen : t.indexOf a < t.length :=
                  List.indexOf_lt_length.mpr hat
                have e1 := List.getElem_indexOf hclen
                have e2 := List.getElem_indexOf halen
                refine hne ?_
                rw [← e1, ← e2]
                congr 1
                omega
              · have : t.indexOf a = t.length := List.indexOf_eq_length.mpr hat
                have hclen : t.indexOf c < t.length :=
                  List.indexOf_lt_length.mpr hct
                omega
            · exact h0
          rw [if_neg (by omega)]
          omega

theorem keyAt_mem_keys (d : PFrame) (i : ℕ) (hi : i < d.rows.length) :
    keyAt d i ∈ keysOf d := by
  unfold keyAt keysOf
  rw [List.getD_eq_getElem?_getD, List.getElem?_eq_getElem hi]
  exact List.mem_map_of_mem Prod.fst (d.rows.getElem_mem hi)

theorem indexOf_ne_of_mem_ne (l : List Value) (c e : Value) (he : e ∈ l)
    (hne : c ≠ e) : l.indexOf c ≠ l.indexOf e := by
  intro h
  by_cases hc : c ∈ l
  · apply hne
    have e1 := List.getElem_indexOf (List.indexOf_lt_length.mpr hc)
    have e2 := List.getElem_indexOf (List.indexOf_lt_length.mpr he)
    rw [← e1, ← e2]
    congr 1
  · have h1 : l.indexOf c = l.length := List.indexOf_eq_length.mpr hc
    have h2 : l.indexOf e < l.length := List.indexOf_lt_length.mpr he
    omega

theorem valAt_of_not_mem_cols (d : PFrame) (i : ℕ) (c : Value)
    (hwf : d.WF) (hc : c ∉ d.cols) : valAt d i c = Value.blank := by
  unfold valAt
  rw [List.indexOf_eq_length.mpr hc]
  by_cases hi : i < d.rows.length
  · have hr : d.rows.getD i (Value.blank, []) = d.rows[i] := by
      rw [List.getD_eq_getElem?_getD, List.getElem?_eq_getElem hi]
      rfl
    rw [hr]
    exact List.getD_eq_default _ _
      (le_of_eq (hwf d.rows[i] (d.rows.getElem_mem hi)))
  · have hr : d.rows.getD i (Value.blank, []) = (Value.blank, []) :=
      List.getD_eq_default _ _ (by omega)
    rw [hr]
    rfl

theorem mergeStep_wf (d : PFrame) (kv : Value × Value) (hwf : d.WF) :
    (mergeStep d kv).WF := by
  unfold mergeStep updateCurrentValue appendFreshRow
  split
  · split
    · intro r hr
      obtain ⟨row, hrow, hre⟩ := List.mem_map.mp hr
      rw [← hre]
      split
    

      · simp only [List.length_set]
        exact hwf row hrow
      · exact hwf row hrow
    · intro r hr
      obtain ⟨row, hrow, hre⟩ := List.mem_map.mp hr
      rw [← hre]
      simp only [List.length_append, List.length_cons, List.length_nil]
      rw [hwf row hrow]
  · split
    · intro r hr
      rcases List.mem_append.mp hr with h | h
      · exact hwf r h
      · simp only [List.mem_singleton] at h
        rw [h]
        simp
    · intro r hr
      rcases List.mem_append.mp hr with h | h
      · obtain ⟨row, hrow, hre⟩ := List.mem_map.mp h
        rw [← hre]
        simp only [List.length_append, List.length_cons, List.length_nil]
        rw [hwf row hrow]
      · simp only [List.mem_singleton] at h
        rw [h]
        simp

theorem mergeStep_rows_le (d : PFrame) (kv : Value × Value) :
    d.rows.length ≤ (mergeStep d kv).rows.length ∧
      (mergeStep d kv).rows.length ≤ d.rows.length + 1 := by
  unfold mergeStep updateCurrentValue appendFreshRow
  split <;> split <;> simp

theorem mergeStep_keyAt (d : PFrame) (kv : Value × Value) (i : ℕ)
    (hi : i < d.rows.length) : keyAt (mergeStep d kv) i = keyAt d i := by
  unfold mergeStep updateCurrentValue appendFreshRow keyAt
  split
  · split
    · rw [getD_map_lt _ _ _ _ (Value.blank, []) hi]
      split <;> rfl
    · rw [getD_map_lt _ _ _ _ (Value.blank, []) hi]
  · split
    · rw [List.getD_append _ _ _ _ hi]
    · rw [List.getD_append _ _ _ _ (by simpa using hi),
        getD_map_lt _ _ _ _ (Value.blank, []) hi]

theorem mergeStep_keyAt_new (d : PFrame) (kv : Value × Value) (i : ℕ)
    (hge : d.rows.length ≤ i) (hlt : i < (mergeStep d kv).rows.length) :
    keyAt (mergeStep d kv) i = kv.1 := by
  unfold mergeStep updateCurrentValue appendFreshRow at hlt ⊢
  unfold keyAt
  by_cases h1 : kv.1 ∈ keysOf d
  · by_cases h2 : vCurrentValue ∈ d.cols
    · rw [if_pos h1, if_pos h2] at hlt
      dsimp only at hlt
      simp only [List.length_map] at hlt
      omega
    · rw [if_pos h1, if_neg h2] at hlt
      dsimp only at hlt
      simp only [List.length_map] at hlt
      omega
  · by_cases h2 : vCurrentValue ∈ d.cols
    · rw [if_neg h1, if_pos h2] at hlt ⊢
      dsimp only at hlt ⊢
      simp only [List.length_append, List.length_cons, List.length_nil]
        at hlt
      have he : i = d.rows.length := by omega
      rw [he, List.getD_append_right _ _ _ _ (le_refl _)]
      simp
    · rw [if_neg h1, if_neg h2] at hlt ⊢
      dsimp only at hlt ⊢
      simp only [List.length_append, List.length_map, List.length_cons,
        List.length_nil] at hlt
      have he : i = d.rows.length := by omega
      rw [he, List.getD_append_right _ _ _ _ (by simp)]
      simp

theorem mergeStep_cols (d : PFrame) (kv : Value × Value) :
    (mergeStep d kv).cols = d.cols ∨
      ((mergeStep d kv).cols = d.cols ++ [vCurrentValue] ∧
        vCurrentValue ∉ d.cols) := by
  unfold mergeStep updateCurrentValue appendFreshRow
  split
  · split
    · exact Or.inl rfl
    · exact Or.inr ⟨rfl, by assumption⟩
  · split
    · exact Or.inl rfl
    · exact Or.inr ⟨rfl, by assumption⟩

theorem mergeStep_cols_cv (d : PFrame) (kv : Value × Value) :
    vCurrentValue ∈ (mergeStep d kv).cols := by
  unfold mergeStep updateCurrentValue appendFreshRow
  split
  · split
    · assumption
    · simp
  · split
    · assumption
    · simp

theorem getD_extend_ne (r : List Value) (cols : List Value) (c x : Value)
    (hlen : r.length = cols.length) (hc : c ≠ vCurrentValue) :
    (r ++ [x]).getD ((cols ++ [vCurrentValue]).indexOf c) Value.blank =
      r.getD (cols.indexOf c) Value.blank := by
  by_cases hmem : c ∈ cols
  · rw [List.indexOf_append_of_mem hmem]
    exact List.getD_append _ _ _ _
      (by rw [hlen]; exact List.indexOf_lt_length.mpr hmem)
  · rw [List.indexOf_append_of_not_mem hmem]
    have hone : List.indexOf c [vCurrentValue] = 1 := by
      rw [List.indexOf_cons_ne _ (fun h => hc h.symm)]
      rfl
    have hic : cols.indexOf c = cols.length := List.indexOf_eq_length.mpr hmem
    rw [hone, hic,
      List.getD_eq_default _ _ (by simp only [List.length_append,
        List.length_cons, List.length_nil]; omega),
      List.getD_eq_default _ _ (by omega)]

theorem getD_extend_cv (r : List Value) (cols : List Value) (x : Value)
    (hlen : r.length = cols.length) (h2 : vCurrentValue ∉ cols) :
    (r ++ [x]).getD ((cols ++ [vCurrentValue]).indexOf vCurrentValue)
      Value.blank = x := by
  rw [List.indexOf_append_of_not_mem h2, List.indexOf_cons_self,
    Nat.add_zero, List.getD_append_right _ _ _ _ (by omega)]
  rw [show cols.length - r.length = 0 by omega]
  rfl

theorem rows_getD_mem (d : PFrame) (i : ℕ) (hi : i < d.rows.length) :
    d.rows.getD i (Value.blank, []) ∈ d.rows := by
  rw [List.getD_eq_getElem?_getD, List.getElem?_eq_getElem hi]
  exact d.rows.getElem_mem hi

theorem mergeStep_frame (d : PFrame) (kv : Value × Value) (i : ℕ)
    (c : Value) (hwf : d.WF) (hi : i < d.rows.length)
    (hcond : c ≠ vCurrentValue ∨ keyAt d i ≠ kv.1) :
    valAt (mergeStep d kv) i c = valAt d i c := by
  have hrowlen : (d.rows.getD i (Value.blank, [])).2.length = d.cols.length :=
    hwf _ (rows_getD_mem d i hi)
  unfold mergeStep updateCurrentValue appendFreshRow
  unfold valAt keyAt at *
  by_cases h1 : kv.1 ∈ keysOf d
  · by_cases h2 : vCurrentValue ∈ d.cols
    · rw [if_pos h1, if_pos h2]
      dsimp only
      rw [getD_map_lt _ _ _ _ (Value.blank, []) hi]
      by_cases hk : (d.rows.getD i (Value.blank, [])).1 = kv.1
      · rw [if_pos hk]
        have hc : c ≠ vCurrentValue := by
          rcases hcond with h | h
          · exact h
          · exact absurd hk h
        exact getD_set_ne _ _ _ _ _
          (Ne.symm (indexOf_ne_of_mem_ne d.cols c vCurrentValue h2 hc))
      · rw [if_neg hk]
    · rw [if_pos h1, if_neg h2]
      dsimp only
      rw [getD_map_lt _ _ _ _ (Value.blank, []) hi]
      dsimp only
      by_cases hc : c = vCurrentValue
      · subst hc
        have hk : (d.rows.getD i (Value.blank, [])).1 ≠ kv.1 := by
          rcases hcond with h | h
          · exact absurd rfl h
          · exact h
        rw [if_neg hk, getD_extend_cv _ _ _ hrowlen h2,
          List.indexOf_eq_length.mpr h2,
          List.getD_eq_default _ _ (by omega)]
      · rw [getD_extend_ne _ _ _ _ hrowlen hc]
  · by_cases h2 : vCurrentValue ∈ d.cols
    · rw [if_neg h1, if_pos h2]
      dsimp only
      rw [List.getD_append _ _ _ _ hi]
    · rw [if_neg h1, if_neg h2]
      dsimp only
      rw [List.getD_append _ _ _ _ (by simpa using hi),
        getD_map_lt _ _ _ _ (Value.blank, []) hi]
      dsimp only
      by_cases hc : c = vCurrentValue
      · subst hc
        rw [getD_extend_cv _ _ _ hrowlen h2,
          List.indexOf_eq_length.mpr h2,
          List.getD_eq_default _ _ (by omega)]
      · rw [getD_extend_ne _ _ _ _ hrowlen hc]

theorem mergeStep_cv (d : PFrame) (kv : Value × Value) (i : ℕ)
    (hwf : d.WF) (hi : i < (mergeStep d kv).rows.length)
    (hk : keyAt (mergeStep d kv) i = kv.1) :
    valAt (mergeStep d kv) i vCurrentValue = kv.2 := by
  unfold mergeStep updateCurrentValue appendFreshRow at hi hk ⊢
  unfold valAt keyAt at *
  by_cases h1 : kv.1 ∈ keysOf d
  · by_cases h2 : vCurrentValue ∈ d.cols
    · rw [if_pos h1, if_pos h2] at hi hk ⊢
      dsimp only at hi hk ⊢
      rw [List.length_map] at hi
      rw [getD_map_lt _ _ _ _ (Value.blank, []) hi] at hk ⊢
      have hrowlen : (d.rows.getD i (Value.blank, [])).2.length =
          d.cols.length := hwf _ (rows_getD_mem d i hi)
      by_cases hkk : (d.rows.getD i (Value.blank, [])).1 = kv.1
      · rw [if_pos hkk]
        exact getD_set_self _ _ _ _
          (by rw [hrowlen]; exact List.indexOf_lt_length.mpr h2)
      · rw [if_neg hkk] at hk
        exact absurd hk hkk
    · rw [if_pos h1, if_neg h2] at hi hk ⊢
      dsimp only at hi hk ⊢
      rw [List.length_map] at hi
      rw [getD_map_lt _ _ _ _ (Value.blank, []) hi] at hk ⊢
      have hrowlen : (d.rows.getD i (Value.blank, [])).2.length =
          d.cols.length := hwf _ (rows_getD_mem d i hi)
      dsimp only at hk ⊢
      rw [hk, if_pos rfl, getD_extend_cv _ _ _ hrowlen h2]
  · by_cases h2 : vCurrentValue ∈ d.cols
    · rw [if_neg h1, if_pos h2] at hi hk ⊢
      dsimp only at hi hk ⊢
      by_cases hlt : i < d.rows.length
      · exfalso
        rw [List.getD_append _ _ _ _ hlt] at hk
        apply h1
        rw [← hk]
        exact keyAt_mem_keys d i hlt
      · simp only [List.length_append, List.length_cons, List.length_nil]
          at hi
        have he : i = d.rows.length := by omega
        rw [he, List.getD_append_right _ _ _ _ (le_refl _)]
        simp only [Nat.sub_self, List.getD_cons_zero]
        rw [getD_map_lt _ _ _ _ Value.blank
          (List.indexOf_lt_length.mpr h2)]
        rw [List.getD_eq_getElem?_getD,
          List.getElem?_eq_getElem (List.indexOf_lt_length.mpr h2)]
        simp only [Option.getD_some]
        rw [List.getElem_indexOf (List.indexOf_lt_length.mpr h2)]
        rw [if_pos rfl]
    · rw [if_neg h1, if_neg h2] at hi hk ⊢
      dsimp only at hi hk ⊢
      by_cases hlt : i < d.rows.length
      · exfalso
        rw [List.getD_append _ _ _ _ (by simpa using hlt),
          getD_map_lt _ _ _ _ (Value.blank, []) hlt] at hk
        apply h1
        rw [← hk]
        exact keyAt_mem_keys d i hlt
      · simp only [List.length_append, List.length_map, List.length_cons,
          List.length_nil] at hi
        have he : i = d.rows.length := by omega
        rw [he, List.getD_append_right _ _ _ _ (by simp)]
        simp only [List.length_map, Nat.sub_self, List.getD_cons_zero]
        rw [List.indexOf_append_of_not_mem h2, List.indexOf_cons_self,
          Nat.add_zero, List.getD_append_right _ _ _ _ (by simp),
          show (List.map (fun _ => Value.blank) d.cols).length = d.cols.length
            from List.length_map _ _]
        rw [Nat.sub_self]
        rfl

theorem keysOf_updateCV (d : PFrame) (k v : Value) :
    keysOf (updateCurrentValue d k v) = keysOf d := by
  unfold updateCurrentValue keysOf
  split <;> dsimp only <;> rw [List.map_map] <;>
    apply List.map_congr_left <;> intro row _ <;>
    simp only [Function.comp_apply]
  split <;> rfl

theorem keysOf_appendFresh (d : PFrame) (k v : Value) :
    keysOf (appendFreshRow d k v) = keysOf d ++ [k] := by
  unfold appendFreshRow keysOf
  split <;> dsimp only <;> rw [List.map_append]
  · rfl
  · rw [List.map_map]
    have : List.map (Prod.fst ∘ fun row : Value × List Value =>
        (row.1, row.2 ++ [Value.blank])) d.rows = List.map Prod.fst d.rows :=
      List.map_congr_left (fun row _ => rfl)
    rw [this]
    rfl

theorem mergeStep_keys (d : PFrame) (kv : Value × Value) :
    keysOf (mergeStep d kv) =
      if kv.1 ∈ keysOf d then keysOf d else keysOf d ++ [kv.1] := by
  unfold mergeStep
  split
  · rw [keysOf_updateCV]
  · rw [keysOf_appendFresh]

theorem mergeStep_keys_mono (d : PFrame) (kv : Value × Value) (x : Value)
    (hx : x ∈ keysOf d) : x ∈ keysOf (mergeStep d kv) := by
  rw [mergeStep_keys]
  split
  · exact hx
  · exact List.mem_append_left _ hx

theorem lastFresh_cons (kv : Value × Value) (t : List (Value × Value))
    (k : Value) :
    lastFreshPrice (kv :: t) k =
      match lastFreshPrice t k with
      | some v => some v
      | none => if kv.1 = k then some kv.2 else none := by
  show t.foldl _ _ = _
  rw [lastFresh_foldl]

theorem mergeLoop_wf (f : List (Value × Value)) :
    ∀ d : PFrame, d.WF → (mergeLoop d f).WF := by
  induction f with
  | nil => intro d h; exact h
  | cons kv t ih => intro d h; exact ih _ (mergeStep_wf d kv h)

theorem mergeLoop_rows_le (f : List (Value × Value)) :
    ∀ d : PFrame, d.rows.length ≤ (mergeLoop d f).rows.length := by
  induction f with
  | nil => intro d; exact le_refl _
  | cons kv t ih =>
    intro d
    exact le_trans (mergeStep_rows_le d kv).1 (ih (mergeStep d kv))

theorem mergeLoop_keyAt (f : List (Value × Value)) :
    ∀ (d : PFrame) (i : ℕ), i < d.rows.length →
      keyAt (mergeLoop d f) i = keyAt d i := by
  induction f with
  | nil => intro d i _; rfl
  | cons kv t ih =>
    intro d i hi
    have e : mergeLoop d (kv :: t) = mergeLoop (mergeStep d kv) t := rfl
    rw [e, ih (mergeStep d kv) i (lt_of_lt_of_le hi (mergeStep_rows_le d kv).1),
      mergeStep_keyAt d kv i hi]

theorem mergeLoop_cols_mono (f : List (Value × Value)) :
    ∀ (d : PFrame) (x : Value), x ∈ d.cols → x ∈ (mergeLoop d f).cols := by
  induction f with
  | nil => intro d x hx; exact hx
  | cons kv t ih =>
    intro d x hx
    apply ih (mergeStep d kv)
    rcases mergeStep_cols d kv with h | ⟨h, _⟩
    · rw [h]; exact hx
    · rw [h]; exact List.mem_append_left _ hx

theorem mergeLoop_cols_cv (f : List (Value × Value)) (hf : f ≠ []) :
    ∀ d : PFrame, vCurrentValue ∈ (mergeLoop d f).cols := by
  cases f with
  | nil => exact absurd rfl hf
  | cons kv t =>
    intro d
    exact mergeLoop_cols_mono t (mergeStep d kv) vCurrentValue
      (mergeStep_cols_cv d kv)

theorem mergeLoop_cols_ne (f : List (Value × Value)) (c : Value)
    (hc : c ≠ vCurrentValue) :
    ∀ d : PFrame, c ∈ (mergeLoop d f).cols ↔ c ∈ d.cols := by
  induction f with
  | nil => intro d; exact Iff.rfl
  | cons kv t ih =>
    intro d
    have e : mergeLoop d (kv :: t) = mergeLoop (mergeStep d kv) t := rfl
    rw [e, ih (mergeStep d kv)]
    rcases mergeStep_cols d kv with h | ⟨h, _⟩
    · rw [h]
    · rw [h]
      simp [hc]

theorem mergeLoop_keys_mono (f : List (Value × Value)) :
    ∀ (d : PFrame) (x : Value), x ∈ keysOf d →
      x ∈ keysOf (mergeLoop d f) := by
  induction f with
  | nil => intro d x hx; exact hx
  | cons kv t ih =>
    intro d x hx
    exact ih (mergeStep d kv) x (mergeStep_keys_mono d kv x hx)

theorem mergeLoop_keys_complete (f : List (Value × Value)) :
    ∀ (d : PFrame) (kv : Value × Value), kv ∈ f →
      kv.1 ∈ keysOf (mergeLoop d f) := by
  induction f with
  | nil => intro d kv h; simp at h
  | cons a t ih =>
    intro d kv h
    rcases List.mem_cons.mp h with h1 | h1
    · subst h1
      apply mergeLoop_keys_mono t (mergeStep d kv) kv.1
      rw [mergeStep_keys]
      split
      · assumption
      · simp
    · exact ih (mergeStep d a) kv h1

theorem mergeLoop_frame (f : List (Value × Value)) :
    ∀ (d : PFrame) (i : ℕ) (c : Value), d.WF → i < d.rows.length →
      (c ≠ vCurrentValue ∨ keyAt d i ∉ f.map Prod.fst) →
      valAt (mergeLoop d f) i c = valAt d i c := by
  induction f with
  | nil => intro d i c _ _ _; rfl
  | cons kv t ih =>
    intro d i c hwf hi hcond
    have e : mergeLoop d (kv :: t) = mergeLoop (mergeStep d kv) t := rfl
    have hstep : valAt (mergeStep d kv) i c = valAt d i c := by
      apply mergeStep_frame d kv i c hwf hi
      rcases hcond with h | h
      · exact Or.inl h
      · refine Or.inr (fun he => h ?_)
        rw [List.map_cons, he]
        exact List.mem_cons_self _ _
    rw [e, ih (mergeStep d kv) i c (mergeStep_wf d kv hwf)
      (lt_of_lt_of_le hi (mergeStep_rows_le d kv).1) ?_, hstep]
    rcases hcond with h | h
    · exact Or.inl h
    · refine Or.inr ?_
      rw [mergeStep_keyAt d kv i hi]
      intro hmem
      exact h (by rw [List.map_cons]; exact List.mem_cons_of_mem _ hmem)

theorem mergeLoop_keyAt_new (f : List (Value × Value)) :
    ∀ (d : PFrame) (i : ℕ), d.rows.length ≤ i →
      i < (mergeLoop d f).rows.length →
      keyAt (mergeLoop d f) i ∈ f.map Prod.fst := by
  induction f with
  | nil =>
    intro d i hge hlt
    have e : mergeLoop d [] = d := rfl
    rw [e] at hlt
    omega
  | cons kv t ih =>
    intro d i hge hlt
    have e : mergeLoop d (kv :: t) = mergeLoop (mergeStep d kv) t := rfl
    rw [e] at hlt ⊢
    by_cases hlt2 : i < (mergeStep d kv).rows.length
    · rw [mergeLoop_keyAt t (mergeStep d kv) i hlt2,
        mergeStep_keyAt_new d kv i hge hlt2, List.map_cons]
      exact List.mem_cons_self _ _
    · rw [List.map_cons]
      exact List.mem_cons_of_mem _ (ih (mergeStep d kv) i (by omega) hlt)

theorem mergeLoop_cv (f : List (Value × Value)) :
    ∀ (d : PFrame) (i : ℕ), d.WF → i < (mergeLoop d f).rows.length →
      keyAt (mergeLoop d f) i ∈ f.map Prod.fst →
      valAt (mergeLoop d f) i vCurrentValue =
        (lastFreshPrice f (keyAt (mergeLoop d f) i)).getD Value.blank := by
  induction f with
  | nil => intro d i _ _ hk; simp at hk
  | cons kv t ih =>
    intro d i hwf hi hk
    have e : mergeLoop d (kv :: t) = mergeLoop (mergeStep d kv) t := rfl
    rw [e] at hi hk ⊢
    by_cases hkt : keyAt (mergeLoop (mergeStep d kv) t) i ∈ t.map Prod.fst
    · rw [ih (mergeStep d kv) i (mergeStep_wf d kv hwf) hi hkt]
      have hs := lastFresh_isSome_of_mem t _ hkt
      rw [lastFresh_cons]
      cases hlf : lastFreshPrice t (keyAt (mergeLoop (mergeStep d kv) t) i) with
      | some v => rfl
      | none => rw [hlf] at hs; simp at hs
    · have hkey : keyAt (mergeLoop (mergeStep d kv) t) i = kv.1 := by
        rw [List.map_cons] at hk
        rcases List.mem_cons.mp hk with h | h
        · exact h
        · exact absurd h hkt
      by_cases hlt : i < (mergeStep d kv).rows.length
      · have hkey' : keyAt (mergeStep d kv) i = kv.1 := by
          rw [← mergeLoop_keyAt t (mergeStep d kv) i hlt]
          exact hkey
        have hfr : valAt (mergeLoop (mergeStep d kv) t) i vCurrentValue =
            valAt (mergeStep d kv) i vCurrentValue := by
          apply mergeLoop_frame t (mergeStep d kv) i vCurrentValue
            (mergeStep_wf d kv hwf) hlt
          refine Or.inr ?_
          rw [mergeLoop_keyAt t (mergeStep d kv) i hlt] at hkt
          exact hkt
        rw [hfr, mergeStep_cv d kv i hwf hlt hkey', hkey, lastFresh_cons,
          lastFresh_none_of_not_mem t kv.1 (hkey ▸ hkt)]
        simp
      · exfalso
        exact hkt (mergeLoop_keyAt_new t (mergeStep d kv) i (by omega) hi)

theorem fillStep_wf (d : PFrame) (c : Value) (hwf : d.WF) :
    (fillStep d c).WF := by
  unfold fillStep
  split
  · exact hwf
  · intro r hr
    obtain ⟨row, hrow, hre⟩ := List.mem_map.mp hr
    rw [← hre]
    simp only [List.length_append, List.length_cons, List.length_nil]
    rw [hwf row hrow]

theorem fillStep_rows_len (d : PFrame) (c : Value) :
    (fillStep d c).rows.length = d.rows.length := by
  unfold fillStep
  split
  · rfl
  · simp

theorem fillStep_keyAt (d : PFrame) (c : Value) (i : ℕ) :
    keyAt (fillStep d c) i = keyAt d i := by
  unfold fillStep keyAt
  split
  · rfl
  · dsimp only
    by_cases hi : i < d.rows.length
    · rw [getD_map_lt _ _ _ _ (Value.blank, []) hi]
    · rw [List.getD_eq_default _ _ (by simp only [List.length_map]; omega),
        List.getD_eq_default _ _ (by omega)]

theorem fillStep_cols_sub (d : PFrame) (a x : Value)
    (hx : x ∈ (fillStep d a).cols) : x ∈ d.cols ∨ x = a := by
  unfold fillStep at hx
  split at hx
  · exact Or.inl hx
  · rcases List.mem_append.mp hx with h | h
    · exact Or.inl h
    · exact Or.inr (List.mem_singleton.mp h)

theorem getD_map_ge {α β : Type} (f : α → β) (l : List α) (i : ℕ) (d' : β)
    (h : l.length ≤ i) : (l.map f).getD i d' = d' :=
  List.getD_eq_default _ _ (by simpa using h)

theorem fillStep_frame (d : PFrame) (a c : Value) (i : ℕ) (hwf : d.WF)
    (hc : c ∈ d.cols) : valAt (fillStep d a) i c = valAt d i c := by
  unfold fillStep valAt
  split
  · rfl
  · dsimp only
    by_cases hi : i < d.rows.length
    · rw [getD_map_lt _ _ _ _ (Value.blank, []) hi]
      dsimp only
      rw [List.indexOf_append_of_mem hc]
      exact List.getD_append _ _ _ _
        (by rw [hwf _ (rows_getD_mem d i hi)]
            exact List.indexOf_lt_length.mpr hc)
    · rw [getD_map_ge _ _ _ _ (by omega),
        List.getD_eq_default d.rows _ (by omega)]
      simp

theorem fillStep_new (d : PFrame) (a : Value) (i : ℕ) (hwf : d.WF)
    (hi : i < d.rows.length) (ha : a ∉ d.cols) :
    valAt (fillStep d a) i a = Value.str "" := by
  unfold fillStep valAt
  rw [if_neg ha]
  dsimp only
  rw [getD_map_lt _ _ _ _ (Value.blank, []) hi]
  dsimp only
  have hlen := hwf _ (rows_getD_mem d i hi)
  rw [List.indexOf_append_of_not_mem ha, List.indexOf_cons_self,
    Nat.add_zero, List.getD_append_right _ _ _ _ (by omega),
    show d.cols.length - (d.rows.getD i (Value.blank, [])).2.length = 0
      by omega]
  rfl

theorem foldl_fillStep_wf (cs : List Value) :
    ∀ d : PFrame, d.WF → (cs.foldl fillStep d).WF := by
  induction cs with
  | nil => intro d h; exact h
  | cons a t ih => intro d h; exact ih _ (fillStep_wf d a h)

theorem foldl_fillStep_rows_len (cs : List Value) :
    ∀ d : PFrame, (cs.foldl fillStep d).rows.length = d.rows.length := by
  induction cs with
  | nil => intro d; rfl
  | cons a t ih =>
    intro d
    rw [List.foldl_cons, ih (fillStep d a), fillStep_rows_len]

theorem foldl_fillStep_keyAt (cs : List Value) :
    ∀ (d : PFrame) (i : ℕ), keyAt (cs.foldl fillStep d) i = keyAt d i := by
  induction cs with
  | nil => intro d i; rfl
  | cons a t ih =>
    intro d i
    rw [List.foldl_cons, ih (fillStep d a), fillStep_keyAt]

theorem foldl_fillStep_frame (cs : List Value) :
    ∀ (d : PFrame) (i : ℕ) (c : Value), d.WF → c ∈ d.cols →
      valAt (cs.foldl fillStep d) i c = valAt d i c := by
  induction cs with
  | nil => intro d i c _ _; rfl
  | cons a t ih =>
    intro d i c hwf hc
    rw [List.foldl_cons,
      ih (fillStep d a) i c (fillStep_wf d a hwf) (fillStep_cols_mono d a c hc),
      fillStep_frame d a c i hwf hc]

theorem foldl_fillStep_new (cs : List Value) :
    ∀ (d : PFrame) (i : ℕ) (c : Value), d.WF → i < d.rows.length →
      c ∈ cs → c ∉ d.cols →
      valAt (cs.foldl fillStep d) i c = Value.str "" := by
  induction cs with
  | nil => intro d i c _ _ hc _; simp at hc
  | cons a t ih =>
    intro d i c hwf hi hc hnc
    rw [List.foldl_cons]
    by_cases hca : c = a
    · subst hca
      rw [foldl_fillStep_frame t (fillStep d c) i c (fillStep_wf d c hwf)
        (fillStep_cols_self d c)]
      exact fillStep_new d c i hwf hi hnc
    · have hct : c ∈ t := by
        rcases List.mem_cons.mp hc with h | h
        · exact absurd h hca
        · exact h
      have hnc' : c ∉ (fillStep d a).cols := by
        intro h
        rcases fillStep_cols_sub d a c h with h1 | h1
        · exact hnc h1
        · exact hca h1
      exact ih (fillStep d a) i c (fillStep_wf d a hwf)
        (by rw [fillStep_rows_len]; exact hi) hct hnc'

theorem getD_append_blank (r : List Value) (k i : ℕ) :
    (r ++ List.replicate k Value.blank).getD i Value.blank =
      r.getD i Value.blank := by
  by_cases h : i < r.length
  · exact List.getD_append _ _ _ _ h
  · rw [List.getD_eq_default r _ (by omega),
      List.getD_append_right r _ _ _ (by omega)]
    by_cases h2 : i - r.length < k
    · rw [List.getD_eq_getElem?_getD,
        List.getElem?_eq_getElem (by simpa using h2)]
      simp
    · rw [List.getD_eq_default _ _ (by simpa using (by omega : k ≤ i - r.length))]

theorem padRow_length (n : ℕ) (r : List Value) : (padRow n r).length = n := by
  simp only [padRow, List.length_take, List.length_append,
    List.length_replicate]
  omega

theorem padRow_getD (n : ℕ) (r : List Value) (i : ℕ) (hin : i < n) :
    (padRow n r).getD i Value.blank = r.getD i Value.blank := by
  unfold padRow
  rw [getD_take _ _ _ _ hin, getD_append_blank]

theorem padRow_eq_self (n : ℕ) (r : List Value) (h : r.length = n) :
    padRow n r = r := by
  subst h
  simp [padRow]

theorem getD_eraseIdx_of_lt (r : List Value) (j t : ℕ) (d : Value)
    (ht : t < j) (hj : j < r.length) :
    (r.eraseIdx j).getD t d = r.getD t d := by
  have h1 : t < (r.eraseIdx j).length := by
    rw [List.length_eraseIdx, if_pos hj]
    omega
  rw [List.getD_eq_getElem?_getD, List.getElem?_eq_getElem h1,
    List.getElem_eraseIdx_of_lt _ _ _ h1 ht,
    List.getD_eq_getElem?_getD, List.getElem?_eq_getElem (by omega)]

theorem getD_eraseIdx_of_ge (r : List Value) (j t : ℕ) (d : Value)
    (ht : j ≤ t) (h : t + 1 < r.length) :
    (r.eraseIdx j).getD t d = r.getD (t + 1) d := by
  have h1 : t < (r.eraseIdx j).length := by
    rw [List.length_eraseIdx, if_pos (by omega)]
    omega
  rw [List.getD_eq_getElem?_getD, List.getElem?_eq_getElem h1,
    List.getElem_eraseIdx_of_ge _ _ _ h1 ht,
    List.getD_eq_getElem?_getD, List.getElem?_eq_getElem h]

theorem readPortfolio_eq (g : Grid) (hdata : g.tail ≠ [])
    (hcid : vCoinID ∈ g.headD []) :
    readPortfolio g =
      ⟨(g.headD []).erase vCoinID,
       g.tail.map (fun r =>
         ((padRow (g.headD []).length r).getD
            ((g.headD []).indexOf vCoinID) Value.blank,
          (padRow (g.headD []).length r).eraseIdx
            ((g.headD []).indexOf vCoinID)))⟩ := by
  simp only [readPortfolio]
  rw [if_neg (by
    push_neg
    exact ⟨by simpa [List.isEmpty_iff] using hdata, hcid⟩)]

theorem readPortfolio_cols (g : Grid) (hdata : g.tail ≠ [])
    (hcid : vCoinID ∈ g.headD []) :
    (readPortfolio g).cols = (g.headD []).erase vCoinID := by
  rw [readPortfolio_eq g hdata hcid]

theorem readPortfolio_rows_len (g : Grid) (hdata : g.tail ≠ [])
    (hcid : vCoinID ∈ g.headD []) :
    (readPortfolio g).rows.length = g.tail.length := by
  rw [readPortfolio_eq g hdata hcid]
  simp

theorem readPortfolio_wf (g : Grid) (hdata : g.tail ≠ [])
    (hcid : vCoinID ∈ g.headD []) : (readPortfolio g).WF := by
  rw [readPortfolio_eq g hdata hcid]
  intro r hr
  obtain ⟨row, hrow, hre⟩ := List.mem_map.mp hr
  rw [← hre]
  dsimp only
  have hj : (g.headD []).indexOf vCoinID < (g.headD []).length :=
    List.indexOf_lt_length.mpr hcid
  rw [List.length_eraseIdx, if_pos (by rw [padRow_length]; exact hj),
    padRow_length, List.length_erase_of_mem hcid]

theorem readPortfolio_keyAt (g : Grid) (hdata : g.tail ≠ [])
    (hcid : vCoinID ∈ g.headD []) (i : ℕ) (hi : i < g.tail.length) :
    keyAt (readPortfolio g) i = cellAt g i vCoinID := by
  rw [readPortfolio_eq g hdata hcid]
  unfold keyAt cellAt
  dsimp only
  rw [getD_map_lt _ _ _ _ [] hi]

theorem readPortfolio_valAt (g : Grid) (hdata : g.tail ≠ [])
    (hcid : vCoinID ∈ g.headD []) (hnd : (g.headD []).Nodup) (i : ℕ)
    (c : Value) (hi : i < g.tail.length) (hc : c ≠ vCoinID) :
    valAt (readPortfolio g) i c = cellAt g i c := by
  rw [readPortfolio_eq g hdata hcid]
  unfold valAt cellAt
  dsimp only
  rw [getD_map_lt _ _ _ _ [] hi]
  dsimp only
  have hj : (g.headD []).indexOf vCoinID < (g.headD []).length :=
    List.indexOf_lt_length.mpr hcid
  have hrlen : (padRow (g.headD []).length (g.tail.getD i [])).length =
      (g.headD []).length := padRow_length _ _
  by_cases hcm : c ∈ g.headD []
  · have hic := indexOf_erase_nodup (g.headD []) vCoinID c hnd hc hcm
    have hne : (g.headD []).indexOf c ≠ (g.headD []).indexOf vCoinID :=
      indexOf_ne_of_mem_ne (g.headD []) c vCoinID hcid hc
    have hclt : (g.headD []).indexOf c < (g.headD []).length :=
      List.indexOf_lt_length.mpr hcm
    rw [hic]
    by_cases hlt : (g.headD []).indexOf c < (g.headD []).indexOf vCoinID
    · rw [if_pos hlt]
      exact getD_eraseIdx_of_lt _ _ _ _ hlt (by omega)
    · rw [if_neg hlt]
      rw [getD_eraseIdx_of_ge _ _ _ _ (by omega) (by omega)]
      congr 1
      omega
  · have h1 : c ∉ (g.headD []).erase vCoinID :=
      fun h => hcm (List.mem_of_mem_erase h)
    rw [List.indexOf_eq_length.mpr h1, List.indexOf_eq_length.mpr hcm]
    have e1 : ((padRow (g.headD []).length (g.tail.getD i [])).eraseIdx
        ((g.headD []).indexOf vCoinID)).length = (g.headD []).length - 1 := by
      rw [List.length_eraseIdx, if_pos (by omega)]
      omega
    have e2 : ((g.headD []).erase vCoinID).length =
        (g.headD []).length - 1 := by
      rw [List.length_erase_of_mem hcid]
    rw [List.getD_eq_default _ _ (by omega), List.getD_eq_default _ _ (by omega)]

theorem kept_eq_of_sub (d : PFrame)
    (hsub : ∀ c ∈ portfolioCols, c ∈ d.cols) :
    portfolioCols.filter (fun c => c ∈ d.cols) = portfolioCols := by
  apply List.filter_eq_self.mpr
  intro c hc
  exact decide_eq_true (hsub c hc)

theorem writePortfolio_tail_len (d : PFrame) :
    (writePortfolio d).tail.length = d.rows.length := by
  simp [writePortfolio]

theorem getD_indexOf (l : List Value) (c d : Value) (h : c ∈ l) :
    l.getD (l.indexOf c) d = c := by
  rw [List.getD_eq_getElem?_getD,
    List.getElem?_eq_getElem (List.indexOf_lt_length.mpr h),
    Option.getD_some, List.getElem_indexOf]

theorem cellAt_writePortfolio_key (d : PFrame)
    (hsub : ∀ c ∈ portfolioCols, c ∈ d.cols) (i : ℕ)
    (hi : i < d.rows.length) :
    cellAt (writePortfolio d) i vCoinID = keyAt d i := by
  unfold cellAt keyAt
  simp only [writePortfolio, List.headD_cons, List.tail_cons]
  rw [kept_eq_of_sub d hsub]
  rw [getD_map_lt _ _ _ _ (Value.blank, []) hi]
  rw [padRow_eq_self _ _ (by simp)]
  rw [List.indexOf_cons_self, List.getD_cons_zero]

theorem cellAt_writePortfolio_val (d : PFrame)
    (hsub : ∀ c ∈ portfolioCols, c ∈ d.cols) (i : ℕ) (c : Value)
    (hi : i < d.rows.length) (hc : c ∈ portfolioCols) :
    cellAt (writePortfolio d) i c = valAt d i c := by
  unfold cellAt valAt
  simp only [writePortfolio, List.headD_cons, List.tail_cons]
  rw [kept_eq_of_sub d hsub]
  rw [getD_map_lt _ _ _ _ (Value.blank, []) hi]
  rw [padRow_eq_self _ _ (by simp)]
  have hvc : vCoinID ∉ portfolioCols := by decide
  have hne : vCoinID ≠ c := fun h => hvc (h ▸ hc)
  rw [List.indexOf_cons_ne _ hne, List.getD_cons_succ]
  rw [getD_map_lt _ _ _ _ Value.blank (List.indexOf_lt_length.mpr hc)]
  rw [getD_indexOf portfolioCols c Value.blank hc]

theorem cellAt_not_mem_header (g : Grid) (i : ℕ) (c : Value)
    (hc : c ∉ g.headD []) : cellAt g i c = Value.blank := by
  unfold cellAt
  rw [List.indexOf_eq_length.mpr hc]
  exact List.getD_eq_default _ _ (le_of_eq (padRow_length _ _))

/-- Existing sheet for the C1 counterexample: the persisted portfolio has
an operator-entered `Notes` column outside the fixed column list. -/
def c1Sheet : Grid :=
  [[vCoinID, Value.str "Notes"],
   [Value.str "bitcoin", Value.str "keep"]]

/-- Fresh price table for the C1 counterexample: it does not mention the
sheet's only asset. -/
def c1Fresh : List (Value × Value) :=
  [(Value.str "dogecoin", Value.num 3)]

/-- C1 counterexample: the persisted `bitcoin` row is absent from the
fresh price table, yet it is *not* preserved unchanged — its `Notes` cell
is dropped from the rewritten sheet entirely, because the rewrite at
lines 758-764 keeps only the fixed column list. -/
theorem C1_counterexample :
    [Value.str "bitcoin", Value.str "keep"] ∉
        mergePortfolioSheet c1Sheet c1Fresh ∧
      ∀ r ∈ mergePortfolioSheet c1Sheet c1Fresh, Value.str "keep" ∉ r := by
  decide

theorem fill_wf (d : PFrame) (h : d.WF) : (fillPortfolioCols d).WF :=
  foldl_fillStep_wf portfolioCols d h

theorem fill_rows_len (d : PFrame) :
    (fillPortfolioCols d).rows.length = d.rows.length :=
  foldl_fillStep_rows_len portfolioCols d

theorem fill_keyAt (d : PFrame) (i : ℕ) :
    keyAt (fillPortfolioCols d) i = keyAt d i :=
  foldl_fillStep_keyAt portfolioCols d i

theorem fill_frame (d : PFrame) (i : ℕ) (c : Value) (hwf : d.WF)
    (hc : c ∈ d.cols) : valAt (fillPortfolioCols d) i c = valAt d i c :=
  foldl_fillStep_frame portfolioCols d i c hwf hc

/-- C1: in the keyed portfolio merge (with a non-empty fresh price table,
a well-formed header containing `Coin ID`, and at least one data row), for
every existing data row: the number of data rows never shrinks, the row's
key cell is preserved, every fixed-list column other than
`Current Value (USD)` that the sheet already had keeps its prior value,
and when the row's key is absent from the fresh table the current-value
cell is also preserved.  This corrects the claim: a column outside the
fixed list (and its data) is *not* preserved — see `C1_counterexample`. -/
theorem C1_keyed_merge_frame (g : Grid) (fresh : List (Value × Value))
    (hnd : (g.headD []).Nodup) (hcid : vCoinID ∈ g.headD [])
    (hdata : g.tail ≠ []) (hfresh : fresh ≠ []) (i : ℕ)
    (hi : i < g.tail.length) :
    g.tail.length ≤ (mergePortfolioSheet g fresh).tail.length ∧
      cellAt (mergePortfolioSheet g fresh) i vCoinID =
        cellAt g i vCoinID ∧
      (∀ c ∈ portfolioCols, c ≠ vCurrentValue → c ∈ g.headD [] →
        cellAt (mergePortfolioSheet g fresh) i c = cellAt g i c) ∧
      (cellAt g i vCoinID ∉ fresh.map Prod.fst →
        cellAt (mergePortfolioSheet g fresh) i vCurrentValue =
          cellAt g i vCurrentValue) := by
  unfold mergePortfolioSheet
  have hwf0 := readPortfolio_wf g hdata hcid
  have hi0 : i < (readPortfolio g).rows.length := by
    rw [readPortfolio_rows_len g hdata hcid]
    exact hi
  have hwfL := mergeLoop_wf fresh _ hwf0
  have hiL : i < (mergeLoop (readPortfolio g) fresh).rows.length :=
    lt_of_lt_of_le hi0 (mergeLoop_rows_le fresh _)
  have hiF : i <
      (fillPortfolioCols (mergeLoop (readPortfolio g) fresh)).rows.length := by
    rw [fill_rows_len]
    exact hiL
  have hsub := fill_has_portfolioCols (mergeLoop (readPortfolio g) fresh)
  refine ⟨?_, ?_, ?_, ?_⟩
  · rw [writePortfolio_tail_len, fill_rows_len,
      ← readPortfolio_rows_len g hdata hcid]
    exact mergeLoop_rows_le fresh _
  · rw [cellAt_writePortfolio_key _ hsub i hiF, fill_keyAt,
      mergeLoop_keyAt fresh _ i hi0, readPortfolio_keyAt g hdata hcid i hi]
  · intro c hcp hcv hch
    have hcne : c ≠ vCoinID :=
      fun h => (by decide : vCoinID ∉ portfolioCols) (h ▸ hcp)
    have hc0 : c ∈ (readPortfolio g).cols := by
      rw [readPortfolio_cols g hdata hcid]
      exact (List.mem_erase_of_ne hcne).mpr hch
    rw [cellAt_writePortfolio_val _ hsub i c hiF hcp,
      fill_frame _ i c hwfL (mergeLoop_cols_mono fresh _ c hc0),
      mergeLoop_frame fresh _ i c hwf0 hi0 (Or.inl hcv),
      readPortfolio_valAt g hdata hcid hnd i c hi hcne]
  · intro hkey
    have hk0 : keyAt (readPortfolio g) i ∉ fresh.map Prod.fst := by
      rw [readPortfolio_keyAt g hdata hcid i hi]
      exact hkey
    rw [cellAt_writePortfolio_val _ hsub i vCurrentValue hiF (by decide),
      fill_frame _ i vCurrentValue hwfL (mergeLoop_cols_cv fresh hfresh _),
      mergeLoop_frame fresh _ i vCurrentValue hwf0 hi0 (Or.inr hk0)]
    by_cases hcvh : vCurrentValue ∈ g.headD []
    · exact readPortfolio_valAt g hdata hcid hnd i vCurrentValue hi (by decide)
    · rw [valAt_of_not_mem_cols _ i vCurrentValue hwf0 (by
          rw [readPortfolio_cols g hdata hcid]
          exact fun h => hcvh (List.mem_of_mem_erase h)),
        cellAt_not_mem_header g i vCurrentValue hcvh]

/-- Existing sheet for the C1 witness. -/
def c1WSheet : Grid :=
  [[vCoinID, vCurrentValue, Value.str "Quantity"],
   [Value.str "bitcoin", Value.num 3, Value.num 2],
   [Value.str "cardano", Value.num 9, Value.num 4]]

/-- Fresh price table for the C1 witness: only `bitcoin` is re-priced. -/
def c1WFresh : List (Value × Value) :=
  [(Value.str "bitcoin", Value.num 5)]

theorem C1_keyed_merge_frame_witness :
    c1WSheet.tail.length ≤
        (mergePortfolioSheet c1WSheet c1WFresh).tail.length ∧
      cellAt (mergePortfolioSheet c1WSheet c1WFresh) 1 vCoinID =
        cellAt c1WSheet 1 vCoinID ∧
      (∀ c ∈ portfolioCols, c ≠ vCurrentValue → c ∈ c1WSheet.headD [] →
        cellAt (mergePortfolioSheet c1WSheet c1WFresh) 1 c =
          cellAt c1WSheet 1 c) ∧
      (cellAt c1WSheet 1 vCoinID ∉ c1WFresh.map Prod.fst →
        cellAt (mergePortfolioSheet c1WSheet c1WFresh) 1 vCurrentValue =
          cellAt c1WSheet 1 vCurrentValue) :=
  C1_keyed_merge_frame c1WSheet c1WFresh (by decide) (by decide)
    (by decide) (by decide) 1 (by decide)

theorem readPortfolio_wf_all (g : Grid) : (readPortfolio g).WF := by
  by_cases hdata : g.tail = []
  · simp only [readPortfolio]
    rw [if_pos (Or.inl (by simp [hdata]))]
    intro r hr
    simp at hr
  · by_cases hcid : vCoinID ∈ g.headD []
    · exact readPortfolio_wf g hdata hcid
    · simp only [readPortfolio]
      rw [if_pos (Or.inr hcid)]
      intro r hr
      simp at hr

theorem readPortfolio_rows_nil (g : Grid)
    (h : (readPortfolio g).rows = []) : readPortfolio g = ⟨[], []⟩ := by
  by_cases hdata : g.tail = []
  · simp only [readPortfolio]
    rw [if_pos (Or.inl (by simp [hdata]))]
  · by_cases hcid : vCoinID ∈ g.headD []
    · exfalso
      rw [readPortfolio_eq g hdata hcid] at h
      dsimp only at h
      exact hdata (List.map_eq_nil_iff.mp h)
    · simp only [readPortfolio]
      rw [if_pos (Or.inr hcid)]

/-- The net effect of the whole fresh-price loop on one already-present
row: the current-value cell receives the price of the key's last
occurrence in the fresh table, and nothing else changes. -/
def applyLast (cols : List Value) (fresh : List (Value × Value))
    (row : Value × List Value) : Value × List Value :=
  match lastFreshPrice fresh row.1 with
  | some v => (row.1, row.2.set (cols.indexOf vCurrentValue) v)
  | none => row

theorem mergeLoop_char (fresh : List (Value × Value)) :
    ∀ d : PFrame, vCurrentValue ∈ d.cols →
      (∀ kv ∈ fresh, kv.1 ∈ keysOf d) →
      mergeLoop d fresh = ⟨d.cols, d.rows.map (applyLast d.cols fresh)⟩ := by
  induction fresh with
  | nil =>
    intro d _ _
    show d = _
    have he : applyLast d.cols [] = id := funext fun row => rfl
    rw [he, List.map_id]
  | cons kv t ih =>
    intro d hcv hkeys
    have hk1 : kv.1 ∈ keysOf d := hkeys kv (List.mem_cons_self _ _)
    have hstep : mergeStep d kv =
        ⟨d.cols, d.rows.map (fun row =>
          if row.1 = kv.1 then
            (row.1, row.2.set (d.cols.indexOf vCurrentValue) kv.2)
          else row)⟩ := by
      unfold mergeStep updateCurrentValue
      rw [if_pos hk1, if_pos hcv]
    have e : mergeLoop d (kv :: t) = mergeLoop (mergeStep d kv) t := rfl
    rw [e, ih (mergeStep d kv) (mergeStep_cols_cv d kv)
      (fun kv' h => mergeStep_keys_mono d kv kv'.1
        (hkeys kv' (List.mem_cons_of_mem _ h))),
      hstep]
    dsimp only
    rw [List.map_map]
    refine congrArg (PFrame.mk d.cols) ?_
    apply List.map_congr_left
    intro row _
    simp only [Function.comp_apply]
    by_cases hkr : row.1 = kv.1
    · rw [if_pos hkr]
      unfold applyLast
      dsimp only
      rw [lastFresh_cons]
      cases hlf : lastFreshPrice t row.1 with
      | some v =>
        dsimp only
        rw [List.set_set]
      | none =>
        dsimp only
        rw [if_pos hkr.symm]
    · rw [if_neg hkr]
      unfold applyLast
      rw [lastFresh_cons]
      cases hlf : lastFreshPrice t row.1 with
      | some v => rfl
      | none =>
        dsimp only
        rw [if_neg (fun h => hkr h.symm)]

theorem fillStep_keys (d : PFrame) (c : Value) :
    keysOf (fillStep d c) = keysOf d := by
  unfold fillStep keysOf
  split
  · rfl
  · dsimp only
    rw [List.map_map]
    exact List.map_congr_left (fun a _ => rfl)

theorem foldl_fillStep_keys (cs : List Value) :
    ∀ d : PFrame, keysOf (cs.foldl fillStep d) = keysOf d := by
  induction cs with
  | nil => intro d; rfl
  | cons a t ih =>
    intro d
    rw [List.foldl_cons, ih (fillStep d a), fillStep_keys]

theorem foldl_fillStep_id (cs : List Value) :
    ∀ d : PFrame, (∀ c ∈ cs, c ∈ d.cols) → cs.foldl fillStep d = d := by
  induction cs with
  | nil => intro d _; rfl
  | cons a t ih =>
    intro d h
    rw [List.foldl_cons, show fillStep d a = d from by
      unfold fillStep
      rw [if_pos (h a (List.mem_cons_self _ _))]]
    exact ih d (fun c hc => h c (List.mem_cons_of_mem _ hc))

theorem List_ext_getD (l₁ l₂ : List Value) (hlen : l₁.length = l₂.length)
    (h : ∀ i, i < l₁.length →
      l₁.getD i Value.blank = l₂.getD i Value.blank) : l₁ = l₂ := by
  apply List.ext_getElem hlen
  intro i h1 h2
  have hh := h i h1
  rw [List.getD_eq_getElem?_getD, List.getElem?_eq_getElem h1,
    List.getD_eq_getElem?_getD, List.getElem?_eq_getElem h2] at hh
  simpa using hh

theorem set_getD_eq_self (l : List Value) (n : ℕ) (v : Value)
    (hn : n < l.length) (hv : l.getD n Value.blank = v) : l.set n v = l := by
  apply List_ext_getD _ _ (by simp)
  intro i hi
  by_cases hin : i = n
  · subst hin
    rw [getD_set_self _ _ _ _ (by simpa using hi)]
    exact hv.symm
  · rw [getD_set_ne _ _ _ _ _ (fun h => hin h.symm)]

/-- `reset_index()[final_portfolio_cols]`: a record restricted to the
fixed column list. -/
def restrictRow (cols : List Value) (row : Value × List Value) :
    Value × List Value :=
  (row.1,
   portfolioCols.map (fun c => row.2.getD (cols.indexOf c) Value.blank))

theorem restrictRecon (s : List Value)
    (hs : s.length = portfolioCols.length) :
    portfolioCols.map
        (fun c => s.getD (portfolioCols.indexOf c) Value.blank) = s := by
  have hidx : ∀ i, i < portfolioCols.length →
      portfolioCols.indexOf (portfolioCols.getD i Value.blank) = i := by
    decide
  apply List_ext_getD _ _ (by simp [hs])
  intro i hi
  have hi' : i < portfolioCols.length := by simpa using hi
  rw [getD_map_lt _ _ _ _ Value.blank hi', hidx i hi']

theorem read_write (d : PFrame) (hsub : ∀ c ∈ portfolioCols, c ∈ d.cols)
    (hrows : d.rows ≠ []) :
    readPortfolio (writePortfolio d) =
      ⟨portfolioCols, d.rows.map (restrictRow d.cols)⟩ := by
  have hkept := kept_eq_of_sub d hsub
  rw [readPortfolio_eq (writePortfolio d)
    (by simp only [writePortfolio, List.tail_cons]; simpa using hrows)
    (by simp only [writePortfolio, List.headD_cons]
        exact List.mem_cons_self _ _)]
  simp only [writePortfolio, List.headD_cons, List.tail_cons]
  rw [hkept, List.erase_cons_head, List.map_map]
  congr 1

theorem merge_write_again (A : PFrame) (fresh : List (Value × Value))
    (hsub : ∀ c ∈ portfolioCols, c ∈ A.cols) (hrows : A.rows ≠ [])
    (hkeys : ∀ kv ∈ fresh, kv.1 ∈ keysOf A)
    (hcv : ∀ i, i < A.rows.length → ∀ v : Value,
      lastFreshPrice fresh (keyAt A i) = some v →
      valAt A i vCurrentValue = v) :
    mergePortfolioSheet (writePortfolio A) fresh = writePortfolio A := by
  unfold mergePortfolioSheet
  rw [read_write A hsub hrows]
  rw [mergeLoop_char fresh ⟨portfolioCols, A.rows.map (restrictRow A.cols)⟩
    (by show vCurrentValue ∈ portfolioCols; decide)
    (by
      intro kv hkv
      have hkB : keysOf
          (⟨portfolioCols, A.rows.map (restrictRow A.cols)⟩ : PFrame) =
          keysOf A := by
        unfold keysOf
        dsimp only
        rw [List.map_map]
        exact List.map_congr_left (fun a _ => rfl)
      rw [hkB]
      exact hkeys kv hkv)]
  dsimp only
  rw [show fillPortfolioCols
      ⟨portfolioCols,
        (A.rows.map (restrictRow A.cols)).map
          (applyLast portfolioCols fresh)⟩ =
      ⟨portfolioCols,
        (A.rows.map (restrictRow A.cols)).map
          (applyLast portfolioCols fresh)⟩ from
    foldl_fillStep_id portfolioCols _ (fun c hc => hc)]
  simp only [writePortfolio]
  dsimp only
  have hkpc : portfolioCols.filter (fun c => c ∈ portfolioCols) =
      portfolioCols := by decide
  rw [hkpc, kept_eq_of_sub A hsub]
  congr 1
  rw [List.map_map, List.map_map]
  apply List.map_congr_left
  intro row hrow
  obtain ⟨i, hi, hrowi⟩ := List.getElem_of_mem hrow
  simp only [Function.comp_apply]
  unfold restrictRow applyLast
  dsimp only
  cases hlf : lastFreshPrice fresh row.1 with
  | none =>
    dsimp only
    congr 1
  | some v =>
    dsimp only
    have hidx0 : portfolioCols.indexOf vCurrentValue = 0 := by decide
    rw [hidx0]
    have hrr : A.rows.getD i (Value.blank, []) = row := by
      rw [List.getD_eq_getElem?_getD, List.getElem?_eq_getElem hi,
        Option.getD_some, hrowi]
    have hcvi := hcv i hi v (by
      rw [show keyAt A i = row.1 from by unfold keyAt; rw [hrr]]
      exact hlf)
    have hv : (portfolioCols.map
        (fun c => row.2.getD (A.cols.indexOf c) Value.blank)).getD 0
          Value.blank = v := by
      rw [getD_map_lt _ _ _ _ Value.blank (by decide)]
      unfold valAt at hcvi
      rw [hrr] at hcvi
      exact hcvi
    rw [set_getD_eq_self _ _ _ (by rw [List.length_map]; decide) hv]
    congr 1

/-- C2: the portfolio-sheet merge is idempotent — for every persisted
sheet grid and every fresh price table, merging the already-merged sheet
again with the same fresh table reproduces it exactly. -/
theorem C2_merge_idempotent (g : Grid) (fresh : List (Value × Value)) :
    mergePortfolioSheet (mergePortfolioSheet g fresh) fresh =
      mergePortfolioSheet g fresh := by
  by_cases hA : (fillPortfolioCols (mergeLoop (readPortfolio g) fresh)).rows
       = []
  · have hL : (mergeLoop (readPortfolio g) fresh).rows = [] := by
      have h1 := fill_rows_len (mergeLoop (readPortfolio g) fresh)
      rw [hA] at h1
      exact List.eq_nil_of_length_eq_zero h1.symm
    have hd0 : (readPortfolio g).rows = [] := by
      have h2 := mergeLoop_rows_le fresh (readPortfolio g)
      have h3 : (mergeLoop (readPortfolio g) fresh).rows.length = 0 := by
        rw [hL]
        rfl
      exact List.eq_nil_of_length_eq_zero (by omega)
    have hread : readPortfolio g = ⟨[], []⟩ := readPortfolio_rows_nil g hd0
    have hfresh : fresh = [] := by
      by_contra hne
      rcases List.exists_mem_of_ne_nil fresh hne with ⟨kv, hkv⟩
      have hk := mergeLoop_keys_complete fresh (readPortfolio g) kv hkv
      rw [show keysOf (mergeLoop (readPortfolio g) fresh) = [] from by
        unfold keysOf
        rw [hL]
        rfl] at hk
      simp at hk
    subst hfresh
    rw [show mergePortfolioSheet g [] =
        writePortfolio (fillPortfolioCols ⟨[], []⟩) from by
      unfold mergePortfolioSheet
      rw [show mergeLoop (readPortfolio g) [] = readPortfolio g from rfl,
        hread]]
    decide
  · show mergePortfolioSheet
      (writePortfolio (fillPortfolioCols
        (mergeLoop (readPortfolio g) fresh))) fresh =
      writePortfolio (fillPortfolioCols (mergeLoop (readPortfolio g) fresh))
    apply merge_write_again
    · exact fill_has_portfolioCols _
    · exact hA
    · intro kv hkv
      rw [show keysOf (fillPortfolioCols (mergeLoop (readPortfolio g) fresh))
          = keysOf (mergeLoop (readPortfolio g) fresh) from
        foldl_fillStep_keys portfolioCols _]
      exact mergeLoop_keys_complete fresh _ kv hkv
    · intro i hi v hlf
      have hiL : i < (mergeLoop (readPortfolio g) fresh).rows.length := by
        have h1 := fill_rows_len (mergeLoop (readPortfolio g) fresh)
        omega
      have hfr : fresh ≠ [] := by
        rintro rfl
        simp [lastFreshPrice] at hlf
      have hkey : keyAt
          (fillPortfolioCols (mergeLoop (readPortfolio g) fresh)) i =
          keyAt (mergeLoop (readPortfolio g) fresh) i := fill_keyAt _ i
      have hmem : keyAt (mergeLoop (readPortfolio g) fresh) i ∈
          fresh.map Prod.fst := by
        by_contra hnm
        rw [hkey, lastFresh_none_of_not_mem fresh _ hnm] at hlf
        exact Option.noConfusion hlf
      rw [fill_frame _ i vCurrentValue
        (mergeLoop_wf fresh _ (readPortfolio_wf_all g))
        (mergeLoop_cols_cv fresh hfr _)]
      rw [mergeLoop_cv fresh _ i (readPortfolio_wf_all g) hiL hmem]
      rw [← hkey, hlf]
      rfl

theorem wbGet_append (a b : Workbook) (n : String) :
    wbGet (a ++ b) n =
      match wbGet a n with
      | some g => some g
      | none => wbGet b n := by
  induction a with
  | nil => rfl
  | cons p t ih =>
    obtain ⟨m, g⟩ := p
    show (if m = n then some g else wbGet (t ++ b) n) = _
    by_cases hm : m = n
    · rw [if_pos hm,
        show wbGet ((m, g) :: t) n = some g from by
          show (if m = n then some g else wbGet t n) = some g
          rw [if_pos hm]]
    · rw [if_neg hm, ih,
        show wbGet ((m, g) :: t) n = wbGet t n from by
          show (if m = n then some g else wbGet t n) = _
          rw [if_neg hm]]

theorem mem_wbNames_iff (w : Workbook) (n : String) :
    n ∈ wbNames w ↔ (wbGet w n).isSome := by
  induction w with
  | nil => simp [wbNames, wbGet]
  | cons p t ih =>
    obtain ⟨m, g⟩ := p
    show n ∈ m :: wbNames t ↔ _
    rw [show wbGet ((m, g) :: t) n =
        if m = n then some g else wbGet t n from rfl]
    by_cases hm : m = n
    · subst hm
      simp
    · rw [if_neg hm]
      simp only [List.mem_cons]
      constructor
      · intro h
        rcases h with h | h
        · exact absurd h.symm hm
        · exact ih.mp h
      · intro h
        exact Or.inr (ih.mpr h)

theorem wbGet_wbSet_ne (w : Workbook) (m : String) (g : Grid) (n : String)
    (h : m ≠ n) : wbGet (wbSet w m g) n = wbGet w n := by
  induction w with
  | nil => rfl
  | cons p t ih =>
    obtain ⟨a, ga⟩ := p
    show wbGet ((if a = m then (m, g) else (a, ga)) :: wbSet t m g) n = _
    by_cases ha : a = m
    · rw [if_pos ha,
        show wbGet ((m, g) :: wbSet t m g) n =
          if m = n then some g else wbGet (wbSet t m g) n from rfl,
        if_neg h,
        show wbGet ((a, ga) :: t) n =
          if a = n then some ga else wbGet t n from rfl,
        if_neg (by rw [ha]; exact h), ih]
    · rw [if_neg ha,
        show wbGet ((a, ga) :: wbSet t m g) n =
          if a = n then some ga else wbGet (wbSet t m g) n from rfl,
        show wbGet ((a, ga) :: t) n =
          if a = n then some ga else wbGet t n from rfl]
      by_cases h2 : a = n
      · rw [if_pos h2, if_pos h2]
      · rw [if_neg h2, if_neg h2, ih]

theorem wbGet_wbSet_self (w : Workbook) (n : String) (g : Grid)
    (h : (wbGet w n).isSome) : wbGet (wbSet w n g) n = some g := by
  induction w with
  | nil => simp [wbGet] at h
  | cons p t ih =>
    obtain ⟨a, ga⟩ := p
    by_cases ha : a = n
    · rw [show wbSet ((a, ga) :: t) n g = (n, g) :: wbSet t n g from by
        show (if a = n then (n, g) else (a, ga)) :: wbSet t n g =
          (n, g) :: wbSet t n g
        rw [if_pos ha],
        show wbGet ((n, g) :: wbSet t n g) n =
          if n = n then some g else wbGet (wbSet t n g) n from rfl,
        if_pos rfl]
    · rw [show wbSet ((a, ga) :: t) n g = (a, ga) :: wbSet t n g from by
        show (if a = n then (n, g) else (a, ga)) :: wbSet t n g =
          (a, ga) :: wbSet t n g
        rw [if_neg ha],
        show wbGet ((a, ga) :: wbSet t n g) n =
          if a = n then some ga else wbGet (wbSet t n g) n from rfl,
        if_neg ha]
      apply ih
      rw [show wbGet ((a, ga) :: t) n =
        if a = n then some ga else wbGet t n from rfl, if_neg ha] at h
      exact h

theorem ensure_preserve (l : List String) :
    ∀ (w : Workbook) (n : String) (g : Grid), wbGet w n = some g →
      wbGet (l.foldl
        (fun w' m => if m ∈ wbNames w' then w' else w' ++ [(m, initSheet m)])
        w) n = some g := by
  induction l with
  | nil => intro w n g h; exact h
  | cons m t ih =>
    intro w n g h
    rw [List.foldl_cons]
    apply ih
    by_cases hm : m ∈ wbNames w
    · rw [if_pos hm]
      exact h
    · rw [if_neg hm, wbGet_append, h]

theorem wbGet_ensure_aux (l : List String) :
    ∀ (w : Workbook) (n : String), n ∈ l →
      wbGet (l.foldl
        (fun w' m => if m ∈ wbNames w' then w' else w' ++ [(m, initSheet m)])
        w) n = some ((wbGet w n).getD (initSheet n)) := by
  induction l with
  | nil => intro w n h; simp at h
  | cons m t ih =>
    intro w n hn
    rw [List.foldl_cons]
    by_cases hnm : n = m
    · subst hnm
      cases hw : wbGet w n with
      | some G =>
        have hmem : n ∈ wbNames w := (mem_wbNames_iff w n).mpr (by rw [hw]; rfl)
        rw [if_pos hmem, ensure_preserve t w n G hw]
        rfl
      | none =>
        have hmem : n ∉ wbNames w := by
          rw [mem_wbNames_iff, hw]
          simp
        rw [if_neg hmem]
        have hsing : wbGet (w ++ [(n, initSheet n)]) n = some (initSheet n) := by
          rw [wbGet_append, hw]
          show (if n = n then some (initSheet n) else wbGet [] n) = _
          rw [if_pos rfl]
        rw [ensure_preserve t _ n (initSheet n) hsing]
        rfl
    · have hnt : n ∈ t := by
        rcases List.mem_cons.mp hn with h | h
        · exact absurd h hnm
        · exact h
      have hpres : wbGet
          (if m ∈ wbNames w then w else w ++ [(m, initSheet m)]) n =
          wbGet w n := by
        by_cases hm : m ∈ wbNames w
        · rw [if_pos hm]
        · rw [if_neg hm, wbGet_append]
          cases hw : wbGet w n with
          | some G => rfl
          | none =>
            show wbGet [(m, initSheet m)] n = none
            show (if m = n then some (initSheet m) else wbGet [] n) = none
            rw [if_neg (fun he => hnm he.symm)]
            rfl
      rw [ih _ n hnt, hpres]

theorem wbGet_ensure (wb : Workbook) (n : String) (hn : n ∈ sheetOrder) :
    wbGet (ensureSheets wb) n = some ((wbGet wb n).getD (initSheet n)) :=
  wbGet_ensure_aux sheetOrder wb n hn

theorem replaceIfFresh_none (w : Workbook) (name : String) :
    replaceIfFresh w name none = w := rfl

theorem wbGet_rif_ne (w : Workbook) (name : String) (t : Option Table)
    (n : String) (h : name ≠ n) :
    wbGet (replaceIfFresh w name t) n = wbGet w n := by
  cases t with
  | none => rfl
  | some tb =>
    show wbGet (if tb.rows.isEmpty then w else wbSet w name (tableGrid tb)) n
      = wbGet w n
    split
    · rfl
    · exact wbGet_wbSet_ne w name _ n h

theorem wbGet_rif_some (w : Workbook) (name : String) (tb : Table)
    (hne : tb.rows ≠ []) (hs : (wbGet w name).isSome) :
    wbGet (replaceIfFresh w name (some tb)) name = some (tableGrid tb) := by
  show wbGet (if tb.rows.isEmpty then w else wbSet w name (tableGrid tb)) name
    = some (tableGrid tb)
  rw [if_neg (by simpa [List.isEmpty_iff] using hne)]
  exact wbGet_wbSet_self w name _ hs

theorem updateHistorical_nil (w : Workbook) : updateHistorical w [] = w := rfl

theorem wbGet_updHist_ne (hist : List (String × Table)) :
    ∀ (w : Workbook) (n : String), (∀ p ∈ hist, histSheetName p.1 ≠ n) →
      wbGet (updateHistorical w hist) n = wbGet w n := by
  induction hist with
  | nil => intro w n _; rfl
  | cons p t ih =>
    intro w n h
    have e : updateHistorical w (p :: t) =
        updateHistorical
          (if histSheetName p.1 ∈ wbNames w ∧ p.2.rows ≠ [] then
            wbSet w (histSheetName p.1) (tableGrid p.2)
          else w) t := rfl
    rw [e, ih _ n (fun q hq => h q (List.mem_cons_of_mem _ hq))]
    by_cases hc : histSheetName p.1 ∈ wbNames w ∧ p.2.rows ≠ []
    · rw [if_pos hc]
      exact wbGet_wbSet_ne _ _ _ _ (h p (List.mem_cons_self _ _))
    · rw [if_neg hc]

theorem wbGet_updPort_ne (w : Workbook) (fresh : List (Value × Value))
    (n : String) (h : currentPortfolioSheetName ≠ n) :
    wbGet (updatePortfolio w fresh) n = wbGet w n := by
  unfold updatePortfolio
  split
  · rfl
  · exact wbGet_wbSet_ne _ _ _ _ h

theorem wbGet_filterMap_none (w : Workbook) (l : List String) (n : String)
    (h : wbGet w n = none) :
    wbGet (l.filterMap (fun m => (wbGet w m).map (fun g => (m, g)))) n =
      none := by
  induction l with
  | nil => rfl
  | cons m t ih =>
    rw [List.filterMap_cons]
    cases hm : wbGet w m with
    | none =>
      simp only [Option.map_none']
      exact ih
    | some G =>
      simp only [Option.map_some']
      show (if m = n then some G else _) = none
      have hmn : m ≠ n := fun he => by
        rw [he, h] at hm
        exact Option.noConfusion hm
      rw [if_neg hmn]
      exact ih

theorem wbGet_filterMap_mem (w : Workbook) (l : List String) (n : String)
    (hn : n ∈ l) :
    wbGet (l.filterMap (fun m => (wbGet w m).map (fun g => (m, g)))) n =
      wbGet w n := by
  induction l with
  | nil => simp at hn
  | cons m t ih =>
    rw [List.filterMap_cons]
    by_cases hmn : m = n
    · subst hmn
      cases hm : wbGet w m with
      | none =>
        simp only [Option.map_none']
        rw [wbGet_filterMap_none w t m hm]
      | some G =>
        simp only [Option.map_some']
        show (if m = m then some G else _) = _
        rw [if_pos rfl]
    · have hnt : n ∈ t := by
        rcases List.mem_cons.mp hn with h | h
        · exact absurd h.symm hmn
        · exact h
      cases hm : wbGet w m with
      | none =>
        simp only [Option.map_none']
        exact ih hnt
      | some G =>
        simp only [Option.map_some']
        show (if m = n then some G else _) = _
        rw [if_neg hmn]
        exact ih hnt

theorem wbGet_filter_order (w : Workbook) (n : String)
    (hn : n ∈ sheetOrder) :
    wbGet (w.filter (fun p => !(sheetOrder.contains p.1))) n = none := by
  induction w with
  | nil => rfl
  | cons p t ih =>
    obtain ⟨m, g⟩ := p
    rw [List.filter_cons]
    split
    · next hcond =>
      have hm : m ∉ sheetOrder := by simpa using hcond
      show (if m = n then some g else _) = none
      rw [if_neg (fun he => hm (by rw [he]; exact hn))]
      exact ih
    · exact ih

theorem wbGet_reorder (w : Workbook) (n : String) (hn : n ∈ sheetOrder) :
    wbGet (reorderSheets w) n = wbGet w n := by
  unfold reorderSheets
  rw [wbGet_append]
  cases hw : wbGet w n with
  | some G =>
    rw [wbGet_filterMap_mem w sheetOrder n hn, hw]
  | none =>
    rw [wbGet_filterMap_none w sheetOrder n hw, wbGet_filter_order w n hn]


theorem wbGet_updHist_stale (hist : List (String × Table)) :
    ∀ (w : Workbook) (n : String),
      (∀ p ∈ hist, histSheetName p.1 = n → p.2.rows = []) →
      wbGet (updateHistorical w hist) n = wbGet w n := by
  induction hist with
  | nil => intro w n _; rfl
  | cons p t ih =>
    intro w n h
    have e : updateHistorical w (p :: t) =
        updateHistorical
          (if histSheetName p.1 ∈ wbNames w ∧ p.2.rows ≠ [] then
            wbSet w (histSheetName p.1) (tableGrid p.2)
          else w) t := rfl
    rw [e, ih _ n (fun q hq hqn => h q (List.mem_cons_of_mem _ hq) hqn)]
    by_cases hc : histSheetName p.1 ∈ wbNames w ∧ p.2.rows ≠ []
    · rw [if_pos hc]
      apply wbGet_wbSet_ne
      intro he
      exact hc.2 (h p (List.mem_cons_self _ _) he)
    · rw [if_neg hc]

theorem wbGet_updHist_after (hist : List (String × Table)) :
    ∀ (w : Workbook) (sym : String) (tb : Table),
      (∀ p ∈ hist, histSheetName p.1 = histSheetName sym → p = (sym, tb)) →
      tb.rows ≠ [] →
      (wbGet w (histSheetName sym)).isSome →
      ((sym, tb) ∈ hist ∨
        wbGet w (histSheetName sym) = some (tableGrid tb)) →
      wbGet (updateHistorical w hist) (histSheetName sym) =
        some (tableGrid tb) := by
  induction hist with
  | nil =>
    intro w sym tb _ _ _ hd
    rcases hd with h | h
    · simp at h
    · exact h
  | cons p t ih =>
    intro w sym tb huniq hner hsome hd
    have e : updateHistorical w (p :: t) =
        updateHistorical
          (if histSheetName p.1 ∈ wbNames w ∧ p.2.rows ≠ [] then
            wbSet w (histSheetName p.1) (tableGrid p.2)
          else w) t := rfl
    rw [e]
    by_cases hpn : histSheetName p.1 = histSheetName sym
    · have hp : p = (sym, tb) := huniq p (List.mem_cons_self _ _) hpn
      subst hp
      rw [if_pos ⟨(mem_wbNames_iff w _).mpr hsome, hner⟩]
      dsimp only
      exact ih _ sym tb
        (fun q hq hqn => huniq q (List.mem_cons_of_mem _ hq) hqn) hner
        (by rw [wbGet_wbSet_self w _ _ hsome]; rfl)
        (Or.inr (wbGet_wbSet_self w _ _ hsome))
    · have hpres : wbGet
          (if histSheetName p.1 ∈ wbNames w ∧ p.2.rows ≠ [] then
            wbSet w (histSheetName p.1) (tableGrid p.2)
          else w) (histSheetName sym) = wbGet w (histSheetName sym) := by
        split
        · exact wbGet_wbSet_ne _ _ _ _ hpn
        · rfl
      apply ih _ sym tb
        (fun q hq hqn => huniq q (List.mem_cons_of_mem _ hq) hqn) hner
      · rw [hpres]
        exact hsome
      · rcases hd with h | h
        · rcases List.mem_cons.mp h with h1 | h1
          · exact absurd (by rw [← h1] : histSheetName p.1 = histSheetName sym)
              hpn
          · exact Or.inl h1
        · exact Or.inr (by rw [hpres]; exact h)

/-- C3 counterexample, against two parts of the claim.  First, the Global
Metrics fetch failed (`noData`) and the sheet is absent from the persisted
workbook, yet after the run the sheet exists — `get_or_create` at lines
380-384 creates every sheet of `SHEET_ORDER` up front, so an absent
generated sheet does *not* remain absent.  Second, the Executive Dashboard
is a generated sheet whose inputs all failed to fetch, yet its stale
content is *not* left untouched: lines 412-414 clear and rewrite it
unconditionally. -/
theorem C3_counterexample :
    noData.globalMetrics = none ∧
      globalMetricsSheetName ∉ wbNames ([] : Workbook) ∧
      globalMetricsSheetName ∈
        wbNames (createOrUpdateExcel [] noData "2026-01-01 00:00:00") ∧
      wbGet (createOrUpdateExcel
          [(executiveDashboardSheetName, [[Value.str "stale dashboard"]])]
          noData "2026-01-01 00:00:00") executiveDashboardSheetName ≠
        some [[Value.str "stale dashboard"]] := by
  decide

/-- C3: per generated sheet category.  For Market Overview, Global
Metrics and Fear & Greed: a failed fetch leaves the sheet's *content*
exactly the stale persisted content (the empty grid when the sheet did
not previously exist — the sheet itself is always created, refuting the
claim that an absent sheet stays absent, see `C3_counterexample`), and a
non-empty fresh table replaces the content entirely, whether or not the
sheet existed.  For each per-symbol history sheet: when every fetched
table for that symbol is empty (in particular when the symbol was not
fetched at all) the sheet keeps its stale content, and when the symbol
has a unique fetched non-empty table the sheet holds exactly that fresh
content.  The Executive Dashboard is rebuilt unconditionally (lines
412-479), stale content is never kept there (see `C3_counterexample`). -/
theorem C3_generated_sheet_replacement (wb : Workbook) (d : AllData)
    (now : String) (hhist : ∀ p ∈ d.historical, p.1 ∈ historySymbols) :
    (d.marketOverview = none →
      wbGet (createOrUpdateExcel wb d now) marketOverviewSheetName =
        some ((wbGet wb marketOverviewSheetName).getD [])) ∧
    (∀ t : Table, d.marketOverview = some t → t.rows ≠ [] →
      wbGet (createOrUpdateExcel wb d now) marketOverviewSheetName =
        some (tableGrid t)) ∧
    (d.globalMetrics = none →
      wbGet (createOrUpdateExcel wb d now) globalMetricsSheetName =
        some ((wbGet wb globalMetricsSheetName).getD [])) ∧
    (∀ t : Table, d.globalMetrics = some t → t.rows ≠ [] →
      wbGet (createOrUpdateExcel wb d now) globalMetricsSheetName =
        some (tableGrid t)) ∧
    (d.fearGreed = none →
      wbGet (createOrUpdateExcel wb d now) fearGreedSheetName =
        some ((wbGet wb fearGreedSheetName).getD [])) ∧
    (∀ t : Table, d.fearGreed = some t → t.rows ≠ [] →
      wbGet (createOrUpdateExcel wb d now) fearGreedSheetName =
        some (tableGrid t)) ∧
    (∀ sym ∈ historySymbols,
      (∀ t : Table, (sym, t) ∈ d.historical → t.rows = []) →
      wbGet (createOrUpdateExcel wb d now) (histSheetName sym) =
        some ((wbGet wb (histSheetName sym)).getD [])) ∧
    (∀ (sym : String) (t : Table), (sym, t) ∈ d.historical →
      t.rows ≠ [] → (∀ t' : Table, (sym, t') ∈ d.historical → t' = t) →
      wbGet (createOrUpdateExcel wb d now) (histSheetName sym) =
        some (tableGrid t)) ∧
    wbGet (createOrUpdateExcel wb d now) executiveDashboardSheetName =
      some (dashboardGrid now d.globalMetrics d.fearGreed) := by
  have histNeMo : ∀ p ∈ d.historical,
      histSheetName p.1 ≠ marketOverviewSheetName :=
    fun p hp => (by decide :
      ∀ s ∈ historySymbols, histSheetName s ≠ marketOverviewSheetName)
      p.1 (hhist p hp)
  have histNeGm : ∀ p ∈ d.historical,
      histSheetName p.1 ≠ globalMetricsSheetName :=
    fun p hp => (by decide :
      ∀ s ∈ historySymbols, histSheetName s ≠ globalMetricsSheetName)
      p.1 (hhist p hp)
  have histNeFg : ∀ p ∈ d.historical,
      histSheetName p.1 ≠ fearGreedSheetName :=
    fun p hp => (by decide :
      ∀ s ∈ historySymbols, histSheetName s ≠ fearGreedSheetName)
      p.1 (hhist p hp)
  have histNeDash : ∀ p ∈ d.historical,
      histSheetName p.1 ≠ executiveDashboardSheetName :=
    fun p hp => (by decide :
      ∀ s ∈ historySymbols, histSheetName s ≠ executiveDashboardSheetName)
      p.1 (hhist p hp)
  simp only [createOrUpdateExcel]
  refine ⟨?_, ?_, ?_, ?_, ?_, ?_, ?_, ?_, ?_⟩
  · intro hmo
    rw [hmo, wbGet_reorder _ _ (by decide),
      wbGet_updPort_ne _ _ _ (by decide),
      wbGet_updHist_ne d.historical _ _ histNeMo,
      wbGet_rif_ne _ _ _ _ (by decide),
      wbGet_rif_ne _ _ _ _ (by decide),
      replaceIfFresh_none,
      wbGet_wbSet_ne _ _ _ _ (by decide),
      wbGet_ensure wb _ (by decide),
      show initSheet marketOverviewSheetName = [] from by decide]
  · intro t hmo hner
    rw [hmo, wbGet_reorder _ _ (by decide),
      wbGet_updPort_ne _ _ _ (by decide),
      wbGet_updHist_ne d.historical _ _ histNeMo,
      wbGet_rif_ne _ _ _ _ (by decide),
      wbGet_rif_ne _ _ _ _ (by decide)]
    have hsome : (wbGet (wbSet (ensureSheets wb)
        executiveDashboardSheetName
        (dashboardGrid now d.globalMetrics d.fearGreed))
        marketOverviewSheetName).isSome := by
      rw [wbGet_wbSet_ne _ _ _ _ (by decide), wbGet_ensure wb _ (by decide)]
      rfl
    exact wbGet_rif_some _ _ t hner hsome
  · intro hgm
    rw [hgm, wbGet_reorder _ _ (by decide),
      wbGet_updPort_ne _ _ _ (by decide),
      wbGet_updHist_ne d.historical _ _ histNeGm,
      wbGet_rif_ne _ _ _ _ (by decide),
      replaceIfFresh_none,
      wbGet_rif_ne _ _ _ _ (by decide),
      wbGet_wbSet_ne _ _ _ _ (by decide),
      wbGet_ensure wb _ (by decide),
      show initSheet globalMetricsSheetName = [] from by decide]
  · intro t hgm hner
    rw [hgm, wbGet_reorder _ _ (by decide),
      wbGet_updPort_ne _ _ _ (by decide),
      wbGet_updHist_ne d.historical _ _ histNeGm,
      wbGet_rif_ne _ _ _ _ (by decide)]
    have hsome : (wbGet (replaceIfFresh (wbSet (ensureSheets wb)
        executiveDashboardSheetName
        (dashboardGrid now (some t) d.fearGreed))
        marketOverviewSheetName d.marketOverview)
        globalMetricsSheetName).isSome := by
      rw [wbGet_rif_ne _ _ _ _ (by decide),
        wbGet_wbSet_ne _ _ _ _ (by decide), wbGet_ensure wb _ (by decide)]
      rfl
    exact wbGet_rif_some _ _ t hner hsome
  · intro hfg
    rw [hfg, wbGet_reorder _ _ (by decide),
      wbGet_updPort_ne _ _ _ (by decide),
      wbGet_updHist_ne d.historical _ _ histNeFg,
      replaceIfFresh_none,
      wbGet_rif_ne _ _ _ _ (by decide),
      wbGet_rif_ne _ _ _ _ (by decide),
      wbGet_wbSet_ne _ _ _ _ (by decide),
      wbGet_ensure wb _ (by decide),
      show initSheet fearGreedSheetName = [] from by decide]
  · intro t hfg hner
    rw [hfg, wbGet_reorder _ _ (by decide),
      wbGet_updPort_ne _ _ _ (by decide),
      wbGet_updHist_ne d.historical _ _ histNeFg]
    have hsome : (wbGet (replaceIfFresh (replaceIfFresh (wbSet
        (ensureSheets wb) executiveDashboardSheetName
        (dashboardGrid now d.globalMetrics (some t)))
        marketOverviewSheetName d.marketOverview)
        globalMetricsSheetName d.globalMetrics)
        fearGreedSheetName).isSome := by
      rw [wbGet_rif_ne _ _ _ _ (by decide),
        wbGet_rif_ne _ _ _ _ (by decide),
        wbGet_wbSet_ne _ _ _ _ (by decide), wbGet_ensure wb _ (by decide)]
      rfl
    exact wbGet_rif_some _ _ t hner hsome
  · intro sym hsym hempty
    have hst : ∀ p ∈ d.historical,
        histSheetName p.1 = histSheetName sym → p.2.rows = [] := by
      intro p hp he
      have hps := hhist p hp
      have hpeq : p.1 = sym := by
        by_contra hne
        exact (by decide : ∀ a ∈ historySymbols, ∀ b ∈ historySymbols,
          a ≠ b → histSheetName a ≠ histSheetName b) p.1 hps sym hsym hne he
      apply hempty p.2
      rw [← hpeq]
      exact hp
    rw [wbGet_reorder _ _
        ((by decide : ∀ s ∈ historySymbols, histSheetName s ∈ sheetOrder)
          sym hsym),
      wbGet_updPort_ne _ _ _
        ((by decide : ∀ s ∈ historySymbols,
          currentPortfolioSheetName ≠ histSheetName s) sym hsym),
      wbGet_updHist_stale d.historical _ _ hst,
      wbGet_rif_ne _ _ _ _
        ((by decide : ∀ s ∈ historySymbols,
          fearGreedSheetName ≠ histSheetName s) sym hsym),
      wbGet_rif_ne _ _ _ _
        ((by decide : ∀ s ∈ historySymbols,
          globalMetricsSheetName ≠ histSheetName s) sym hsym),
      wbGet_rif_ne _ _ _ _
        ((by decide : ∀ s ∈ historySymbols,
          marketOverviewSheetName ≠ histSheetName s) sym hsym),
      wbGet_wbSet_ne _ _ _ _
        ((by decide : ∀ s ∈ historySymbols,
          executiveDashboardSheetName ≠ histSheetName s) sym hsym),
      wbGet_ensure wb _
        ((by decide : ∀ s ∈ historySymbols, histSheetName s ∈ sheetOrder)
          sym hsym),
      (by decide : ∀ s ∈ historySymbols, initSheet (histSheetName s) = [])
        sym hsym]
  · intro sym t hmem hner huniq
    have hsym : sym ∈ historySymbols := hhist (sym, t) hmem
    have huniq' : ∀ p ∈ d.historical,
        histSheetName p.1 = histSheetName sym → p = (sym, t) := by
      intro p hp he
      have hps := hhist p hp
      have hpeq : p.1 = sym := by
        by_contra hne
        exact (by decide : ∀ a ∈ historySymbols, ∀ b ∈ historySymbols,
          a ≠ b → histSheetName a ≠ histSheetName b) p.1 hps sym hsym hne he
      have hpt : p.2 = t := by
        apply huniq p.2
        rw [← hpeq]
        exact hp
      calc p = (p.1, p.2) := rfl
        _ = (sym, t) := by rw [hpeq, hpt]
    rw [wbGet_reorder _ _
        ((by decide : ∀ s ∈ historySymbols, histSheetName s ∈ sheetOrder)
          sym hsym),
      wbGet_updPort_ne _ _ _
        ((by decide : ∀ s ∈ historySymbols,
          currentPortfolioSheetName ≠ histSheetName s) sym hsym)]
    have hsome : (wbGet (replaceIfFresh (replaceIfFresh (replaceIfFresh
        (wbSet (ensureSheets wb) executiveDashboardSheetName
          (dashboardGrid now d.globalMetrics d.fearGreed))
        marketOverviewSheetName d.marketOverview)
        globalMetricsSheetName d.globalMetrics)
        fearGreedSheetName d.fearGreed) (histSheetName sym)).isSome := by
      rw [wbGet_rif_ne _ _ _ _
          ((by decide : ∀ s ∈ historySymbols,
            fearGreedSheetName ≠ histSheetName s) sym hsym),
        wbGet_rif_ne _ _ _ _
          ((by decide : ∀ s ∈ historySymbols,
            globalMetricsSheetName ≠ histSheetName s) sym hsym),
        wbGet_rif_ne _ _ _ _
          ((by decide : ∀ s ∈ historySymbols,
            marketOverviewSheetName ≠ histSheetName s) sym hsym),
        wbGet_wbSet_ne _ _ _ _
          ((by decide : ∀ s ∈ historySymbols,
            executiveDashboardSheetName ≠ histSheetName s) sym hsym),
        wbGet_ensure wb _
          ((by decide : ∀ s ∈ historySymbols, histSheetName s ∈ sheetOrder)
            sym hsym)]
      rfl
    exact wbGet_updHist_after d.historical _ sym t huniq' hner hsome
      (Or.inl hmem)
  · rw [wbGet_reorder _ _ (by decide),
      wbGet_updPort_ne _ _ _ (by decide),
      wbGet_updHist_ne d.historical _ _ histNeDash,
      wbGet_rif_ne _ _ _ _ (by decide),
      wbGet_rif_ne _ _ _ _ (by decide),
      wbGet_rif_ne _ _ _ _ (by decide)]
    have hsome : (wbGet (ensureSheets wb)
        executiveDashboardSheetName).isSome := by
      rw [wbGet_ensure wb _ (by decide)]
      rfl
    exact wbGet_wbSet_self _ _ _ hsome

/-- Fresh Market Overview table for the C3 witness. -/
def c3Mo : Table := ⟨["Name"], [[Value.str "Bitcoin"]]⟩

/-- Fresh BTC history table for the C3 witness. -/
def c3Hist : Table := ⟨["Date"], [[Value.str "1970-01-02"]]⟩

/-- Run data for the C3 witness: the market-overview and BTC-history
fetches succeeded, the global-metrics and all other history fetches
failed. -/
def c3Data : AllData := ⟨[], some c3Mo, none, none, [("BTC", c3Hist)]⟩

/-- Persisted workbook for the C3 witness: stale Global Metrics and ETH
history sheets. -/
def c3Wb : Workbook :=
  [(globalMetricsSheetName, [[Value.str "stale"]]),
   (histSheetName "ETH", [[Value.str "stale history"]])]

theorem C3_generated_sheet_replacement_witness :
    wbGet (createOrUpdateExcel c3Wb c3Data "2026-01-02 00:00:00")
        marketOverviewSheetName = some (tableGrid c3Mo) ∧
      wbGet (createOrUpdateExcel c3Wb c3Data "2026-01-02 00:00:00")
        globalMetricsSheetName =
        some ((wbGet c3Wb globalMetricsSheetName).getD []) ∧
      wbGet (createOrUpdateExcel c3Wb c3Data "2026-01-02 00:00:00")
        (histSheetName "BTC") = some (tableGrid c3Hist) ∧
      wbGet (createOrUpdateExcel c3Wb c3Data "2026-01-02 00:00:00")
        (histSheetName "ETH") =
        some ((wbGet c3Wb (histSheetName "ETH")).getD []) :=
  ⟨(C3_generated_sheet_replacement c3Wb c3Data "2026-01-02 00:00:00"
      (by decide)).2.1 c3Mo rfl (by decide),
   (C3_generated_sheet_replacement c3Wb c3Data "2026-01-02 00:00:00"
      (by decide)).2.2.1 rfl,
   (C3_generated_sheet_replacement c3Wb c3Data "2026-01-02 00:00:00"
      (by decide)).2.2.2.2.2.2.2.1 "BTC" c3Hist (by decide) (by decide)
     (fun t' ht' => congrArg Prod.snd (List.mem_singleton.mp ht')),
   (C3_generated_sheet_replacement c3Wb c3Data "2026-01-02 00:00:00"
      (by decide)).2.2.2.2.2.2.1 "ETH" (by decide)
     (fun t ht =>
       absurd
         (show ("ETH" : String) = "BTC" from
           congrArg Prod.fst (List.mem_singleton.mp ht))
         (by decide))⟩
